import Mathlib

/-!
Shallow embedding of the correlation / lag analysis engine
(`utils/analysis.py`, class `CorrelationAnalyzer`) of the export-sales
analysis app.

Modelling conventions:
* Timestamps are month numbers (`Int`): both inputs are resampled to
  month-end frequency upstream (`fred_data.py`), so a month is one tick.
* A pandas `Series` after `.dropna()` is a `Series` here: a list of
  `(date, value)` pairs with rational values.  A raw column (which may
  contain NaN) is a `RawSeries`: values are `Option ℚ`, `none` = NaN.
* `fred_data` (a DataFrame) is a `Frame`: a shared row index plus named
  columns of optional values, each column as long as the index.
* `export_data` is a `RawSeries` (its single column `Export_Sales`);
  its index is the list of its dates.
* `scipy.stats.pearsonr` returns NaN exactly when one input is constant
  (zero variance); we keep the statistic exactly as the triple
  `(covariance sum, variance sum x, variance sum y)` of rationals
  (`Pcorr`), `none` standing for the NaN result.  The real correlation
  value `Pcorr.val` is `cov / (sqrt vx * sqrt vy)`, the textbook Pearson
  formula the float code evaluates.
* The p-value returned by `pearsonr` (a t-distribution tail) is carried
  as an uninterpreted parameter `pval`; no claim constrains it.
-/

namespace ExportAnalysis

abbrev Date := Int

/-- A date-indexed column that may contain missing values (NaN ↦ `none`). -/
abbrev RawSeries := List (Date × Option ℚ)

/-- A date-indexed column with no missing values (result of `.dropna()`). -/
abbrev Series := List (Date × ℚ)

/-- A DataFrame: a shared row index and named columns of optional values. -/
structure Frame where
  idx : List Date
  cols : List (String × List (Option ℚ))
deriving Repr, DecidableEq

/-- Column access `frame[name]`, as a raw (date, optional value) series. -/
def Frame.col? (f : Frame) (name : String) : Option RawSeries :=
  (f.cols.find? fun c => decide (c.1 = name)).map fun c => f.idx.zip c.2

/-- `frame.columns`. -/
def Frame.colNames (f : Frame) : List String := f.cols.map Prod.fst

/-- `series.dropna()`: drop the rows whose value is missing. -/
def dropna (s : RawSeries) : Series :=
  s.filterMap fun p => p.2.map fun v => (p.1, v)

/-- The index of a dropna'd series. -/
def dates (s : Series) : List Date := s.map Prod.fst

/-- The index of a raw series. -/
def rawDates (s : RawSeries) : List Date := s.map Prod.fst

/-- `series.loc[d]` on a dropna'd series (first match). -/
def lookupVal (s : Series) (d : Date) : Option ℚ :=
  (s.find? fun p => decide (p.1 = d)).map Prod.snd

/-- `series.loc[d]` on a raw series: `some none` is a present NaN cell. -/
def lookupRaw (s : RawSeries) (d : Date) : Option (Option ℚ) :=
  (s.find? fun p => decide (p.1 = d)).map Prod.snd

/-- `a.index.intersection(b.index)`: both indices are sorted ascending, so
the intersection (in `a`'s order) is the sorted common-date list. -/
def commonDates (a b : List Date) : List Date :=
  a.filter fun d => decide (d ∈ b)

/-- `series.loc[ds]` for a list of dates known to be in the index. -/
def locVals (s : Series) (ds : List Date) : List ℚ :=
  ds.filterMap (lookupVal s)

/-- `series.shift(k)` (k > 0): values move down `k` positions, the index is
unchanged, the first `k` cells become NaN, the last `k` values fall off. -/
def shift (s : Series) (k : Nat) : RawSeries :=
  (s.map Prod.fst).zip (List.replicate k none ++ s.map fun p => some p.2)

/-- Sample mean. -/
def mean (xs : List ℚ) : ℚ := xs.sum / xs.length

/-- Unnormalised covariance sum `Σ (xi - x̄)(yi - ȳ)`. -/
def covSum (xs ys : List ℚ) : ℚ :=
  ((xs.zip ys).map fun p => (p.1 - mean xs) * (p.2 - mean ys)).sum

/-- Unnormalised variance sum `Σ (xi - x̄)²`. -/
def varSum (xs : List ℚ) : ℚ := covSum xs xs

/-- Exact representation of a Pearson correlation coefficient
`cov / (sqrt vx * sqrt vy)`: the three defining rational sums. -/
structure Pcorr where
  cov : ℚ
  vx : ℚ
  vy : ℚ
deriving Repr, DecidableEq

/-- The real value of the coefficient (what the float code stores). -/
noncomputable def Pcorr.val (p : Pcorr) : ℝ :=
  (p.cov : ℝ) / (Real.sqrt (p.vx : ℝ) * Real.sqrt (p.vy : ℝ))

/-- The square of the coefficient's absolute value, as an exact rational.
Used as the comparison key of the rankers (order-isomorphic to `|val|`
whenever the variance sums are positive, which `pearsonOpt` guarantees). -/
def Pcorr.absSq (p : Pcorr) : ℚ := p.cov ^ 2 / (p.vx * p.vy)

/-- `scipy.stats.pearsonr` on two aligned equal-length sequences:
NaN (`none`) exactly when either input has zero variance. -/
def pearsonOpt (xs ys : List ℚ) : Option Pcorr :=
  if varSum xs = 0 ∨ varSum ys = 0 then none
  else some ⟨covSum xs ys, varSum xs, varSum ys⟩

/-- Pearson over a list of already-built pairs. -/
def pearsonPairs (ps : List (ℚ × ℚ)) : Option Pcorr :=
  pearsonOpt (ps.map Prod.fst) (ps.map Prod.snd)

/-- One simultaneous correlation entry:
`{'correlation': …, 'p_value': …, 'n_observations': …}`. -/
structure CorrResult where
  corr : Pcorr
  pValue : ℚ
  nObs : Nat
deriving Repr, DecidableEq

/-- The body of `calculate_correlations` for one indicator already known to
be a column: align on common dates, require ≥ 3 points, drop a NaN
(zero-variance) coefficient. -/
def corrOfSeries (pval : List ℚ → List ℚ → ℚ) (is es : Series) :
    Option CorrResult :=
  let cd := commonDates (dates is) (dates es)
  if 3 ≤ cd.length then
    let xs := locVals is cd
    let ys := locVals es cd
    match pearsonOpt xs ys with
    | some p => some ⟨p, pval xs ys, cd.length⟩
    | none => none
  else none

/-- `calculate_correlations` restricted to one selected name: `none` when
the name is not a column or the computation fails. -/
def corrAt (pval : List ℚ → List ℚ → ℚ) (fred : Frame) (expo : RawSeries)
    (ind : String) : Option CorrResult :=
  match fred.col? ind with
  | some rs => corrOfSeries pval (dropna rs) (dropna expo)
  | none => none

/-- `calculate_correlations(fred_data, export_data, selected_indicators)`:
an insertion-ordered dict, one entry per selected indicator that is a
column, has ≥ 3 common dates and a non-NaN coefficient. -/
def calcCorrelations (pval : List ℚ → List ℚ → ℚ) (fred : Frame)
    (expo : RawSeries) (selected : List String) :
    List (String × CorrResult) :=
  selected.filterMap fun ind => (corrAt pval fred expo ind).map fun c => (ind, c)

/-- `self.lag_range = range(-6, 7)`. -/
def lagRange : List Int := (List.range 13).map fun i => (i : Int) - 6

/-- The per-lag body of `calculate_lag_correlations`: for `lag > 0` the
export (target) series is shifted, for `lag < 0` the indicator series is
shifted, for `lag == 0` no shift; then align on common dates (≥ 3), mask
the NaNs the shift introduced (≥ 3 must survive), and drop a NaN
coefficient. -/
def lagCorrAt (is es : Series) (lag : Int) : Option Pcorr :=
  if 0 < lag then
    let shifted := shift es lag.toNat
    let cd := commonDates (dates is) (rawDates shifted)
    if 3 ≤ cd.length then
      let pairs := cd.filterMap fun d =>
        match lookupVal is d, lookupRaw shifted d with
        | some x, some (some y) => some (x, y)
        | _, _ => none
      if 3 ≤ pairs.length then pearsonPairs pairs else none
    else none
  else if lag < 0 then
    let shifted := shift is (-lag).toNat
    let cd := commonDates (rawDates shifted) (dates es)
    if 3 ≤ cd.length then
      let pairs := cd.filterMap fun d =>
        match lookupRaw shifted d, lookupVal es d with
        | some (some x), some y => some (x, y)
        | _, _ => none
      if 3 ≤ pairs.length then pearsonPairs pairs else none
    else none
  else
    let cd := commonDates (dates is) (dates es)
    if 3 ≤ cd.length then pearsonOpt (locVals is cd) (locVals es cd)
    else none

/-- The per-indicator lag dict of `calculate_lag_correlations`: lags in
sweep order, only those that produced a defined coefficient. -/
def lagMapAt (fred : Frame) (expo : RawSeries) (ind : String) :
    Option (List (Int × Pcorr)) :=
  match fred.col? ind with
  | some rs =>
      let m := lagRange.filterMap fun lag =>
        (lagCorrAt (dropna rs) (dropna expo) lag).map fun p => (lag, p)
      if m.isEmpty then none else some m
  | none => none

/-- `calculate_lag_correlations(fred_data, export_data, selected_indicators)`:
per selected indicator that is a column, its non-empty lag dict. -/
def calcLagCorrelations (fred : Frame) (expo : RawSeries)
    (selected : List String) : List (String × List (Int × Pcorr)) :=
  selected.filterMap fun ind => (lagMapAt fred expo ind).map fun m => (ind, m)

/-! ### Ranking (`get_top_correlations`, `get_top_lagged_correlations`)

`df.sort_values(col, ascending=False)` argsorts ascending (stable for the
insertion-sorted small partitions numpy uses) and then reverses the whole
indexer, so the descending output orders rows by decreasing key and breaks
key ties by decreasing original position.  We realise exactly that order by
insertion-sorting the position-enumerated rows under the strict total order
`sortValuesDescBefore` (decreasing `absSq` key, ties by decreasing index). -/

/-- Row `x` is ordered strictly before row `y` in the descending sort. -/
def sortValuesDescBefore {α : Type} (key : α → Pcorr) (x y : Nat × α) : Bool :=
  decide ((key y.2).absSq < (key x.2).absSq) ||
    (decide ((key x.2).absSq = (key y.2).absSq) && decide (y.1 < x.1))

/-- Insert into a list sorted by the strict order `bef`. -/
def insertBy {α : Type} (bef : α → α → Bool) (a : α) : List α → List α
  | [] => [a]
  | b :: bs => if bef a b then a :: b :: bs else b :: insertBy bef a bs

/-- Insertion sort by the strict order `bef`. -/
def sortBy {α : Type} (bef : α → α → Bool) : List α → List α
  | [] => []
  | a :: as => insertBy bef a (sortBy bef as)

/-- `df.sort_values('Abs_Correlation', ascending=False)` on rows whose sort
key is `key row`. -/
def sortValuesDesc {α : Type} (key : α → Pcorr) (rows : List α) : List α :=
  (sortBy (sortValuesDescBefore key) rows.enum).map Prod.snd

/-- `get_top_correlations(correlations, top_n=5)`.  An empty dict builds an
empty DataFrame with no columns, so `correlation_df['Correlation']` raises
`KeyError` (`none`); otherwise sort descending by absolute correlation and
keep the first `top_n` rows. -/
def getTopCorrelations (corrs : List (String × CorrResult))
    (topN : Nat) : Option (List (String × CorrResult)) :=
  if corrs.isEmpty then none
  else some ((sortValuesDesc (fun r => r.2.corr) corrs).take topN)

/-- `get_top_lagged_correlations(lag_results, top_n=3)`: flatten every
(indicator, lag) pair in dict order, sort descending by absolute
correlation, keep the first `top_n`; an empty flattened list raises
`KeyError` in `sort_values` (`none`). -/
def getTopLaggedCorrelations (lagRes : List (String × List (Int × Pcorr)))
    (topN : Nat) : Option (List (String × Int × Pcorr)) :=
  let rows := lagRes.flatMap fun r => r.2.map fun lp => (r.1, lp.1, lp.2)
  if rows.isEmpty then none
  else some ((sortValuesDesc (fun r => r.2.2) rows).take topN)

/-! ### Correlation matrix (`create_correlation_matrix`)

`pd.concat([fred[available], export], axis=1).corr()` computes, for every
pair of columns, the Pearson coefficient over the rows where *both* columns
have a value (pandas `nancorr`, pairwise deletion, `min_periods=1`), with
NaN for a pair with zero variance on its common rows.  Both symmetric
entries are filled from the one computation. -/

/-- The selected indicators that are actually columns. -/
def availableIndicators (fred : Frame) (selected : List String) :
    List String :=
  selected.filter fun ind => (fred.col? ind).isSome

/-- The column labels of the combined frame (available indicators then the
target). -/
def matrixNames (fred : Frame) (selected : List String) : List String :=
  availableIndicators fred selected ++ ["Export_Sales"]

/-- The raw column of the combined frame under a matrix label. -/
def matrixCol (fred : Frame) (expo : RawSeries) (name : String) : RawSeries :=
  if name = "Export_Sales" then expo else (fred.col? name).getD []

/-- The row index of the combined frame: every date of any column, once. -/
def allRowDates (fred : Frame) (expo : RawSeries) : List Date :=
  (fred.idx ++ rawDates expo).dedup

/-- The pair of values of two columns at one row, when both are present. -/
def pairAt (r1 r2 : RawSeries) (d : Date) : Option (ℚ × ℚ) :=
  match lookupRaw r1 d, lookupRaw r2 d with
  | some (some x), some (some y) => some (x, y)
  | _, _ => none

/-- One cell of `combined_data.corr()`: Pearson over the pairwise-complete
rows of the two columns, `none` for a NaN cell. -/
def matrixEntry (fred : Frame) (expo : RawSeries) (x y : String) :
    Option Pcorr :=
  pearsonPairs ((allRowDates fred expo).filterMap
    (pairAt (matrixCol fred expo x) (matrixCol fred expo y)))

/-- `create_correlation_matrix(fred_data, export_data, selected_indicators)`
as a labelled square table of optional cells. -/
def createCorrelationMatrix (fred : Frame) (expo : RawSeries)
    (selected : List String) :
    List (String × List (String × Option Pcorr)) :=
  (matrixNames fred selected).map fun x =>
    (x, (matrixNames fred selected).map fun y =>
      (y, matrixEntry fred expo x y))

/-! ### Orchestrator (`run_full_analysis`) -/

/-- The maximal element of a date index; `none` on an empty index
(pandas `NaT`, which poisons the window arithmetic: modelled as failure). -/
def maxDate? (l : List Date) : Option Date :=
  l.foldr (fun d acc => some (match acc with
    | some m => max d m
    | none => d)) none

/-- `frame.loc[start:end]`: keep the rows whose date is inside the closed
interval, every column filtered alongside the index. -/
def Frame.rowRestrict (f : Frame) (lo hi : Date) : Frame :=
  { idx := f.idx.filter fun d => decide (lo ≤ d) && decide (d ≤ hi)
    cols := f.cols.map fun c =>
      (c.1, ((f.idx.zip c.2).filter fun q =>
        decide (lo ≤ q.1) && decide (q.1 ≤ hi)).map Prod.snd) }

/-- `export_data.loc[start:end]`. -/
def rawRestrict (s : RawSeries) (lo hi : Date) : RawSeries :=
  s.filter fun p => decide (lo ≤ p.1) && decide (p.1 ≤ hi)

/-- `pd.concat([fred_filtered[selected_indicators],
export_filtered[['Export_Sales']]], axis=1).dropna()`: `none` when a
selected indicator is not a column (pandas raises `KeyError`); otherwise
the rows at which every selected column and the target have a value. -/
def analysisRows (fred : Frame) (expo : RawSeries)
    (selected : List String) : Option (List (Date × (List ℚ × ℚ))) :=
  if selected.all fun ind => (fred.col? ind).isSome then
    some ((allRowDates fred expo).filterMap fun d =>
      match (selected.mapM fun ind =>
              (lookupRaw ((fred.col? ind).getD []) d).bind id),
            (lookupRaw expo d).bind id with
      | some xs, some y => some (d, (xs, y))
      | _, _ => none)
  else none

/-- The assembled result dict of `run_full_analysis`. -/
structure AnalysisBundle where
  correlations : List (String × CorrResult)
  lagAnalysis : List (String × List (Int × Pcorr))
  topCorrelations : List (String × CorrResult)
  topLaggedCorrelations : List (String × Int × Pcorr)
  correlationMatrix : List (String × List (String × Option Pcorr))
  analysisData : List (Date × (List ℚ × ℚ))
  lookbackWindow : Nat
  analysisPeriod : Date × Date
deriving Repr, DecidableEq

/-- `run_full_analysis(fred_data, export_data, selected_indicators,
lookback_window)`: window both inputs to
`[min(max dates) - lookback, min(max dates)]`, run the calculators, the
rankers and the matrix builder, assemble the bundle; `none` when any step
raises (empty index, empty ranking input, unknown selected column in the
`analysis_data` concat). -/
def runFullAnalysis (pval : List ℚ → List ℚ → ℚ) (fred : Frame)
    (expo : RawSeries) (selected : List String) (lookback : Nat) :
    Option AnalysisBundle := do
  let endF ← maxDate? fred.idx
  let endE ← maxDate? (rawDates expo)
  let endDate := min endF endE
  let startDate := endDate - (lookback : Int)
  let ff := fred.rowRestrict startDate endDate
  let ef := rawRestrict expo startDate endDate
  let correlations := calcCorrelations pval ff ef selected
  let lagAnalysis := calcLagCorrelations ff ef selected
  let top ← getTopCorrelations correlations 5
  let topLagged ← getTopLaggedCorrelations lagAnalysis 3
  let matrix := createCorrelationMatrix ff ef selected
  let data ← analysisRows ff ef selected
  pure { correlations := correlations
         lagAnalysis := lagAnalysis
         topCorrelations := top
         topLaggedCorrelations := topLagged
         correlationMatrix := matrix
         analysisData := data
         lookbackWindow := lookback
         analysisPeriod := (startDate, endDate) }

/-- Dictionary lookup in an insertion-ordered association list (first
matching key, as a Python dict with unique keys). -/
def lookupA {κ β : Type} [DecidableEq κ] (l : List (κ × β)) (k : κ) :
    Option β :=
  (l.find? fun p => decide (p.1 = k)).map Prod.snd

/-! ### Specification-side formulations (for refinement comparisons)

These definitions follow the spec's words, to be compared with the
embedded code above; they are not translations of the source. -/

/-- Spec formulation of the positive-lag sweep: the target (export) series
is the one shifted forward by `k` positions, i.e. the indicator value at a
common date is paired with the target value `k` positions earlier in the
target's own index. -/
def specPairsTargetShift (is es : Series) (k : Nat) : List (ℚ × ℚ) :=
  (commonDates (dates is) (dates es)).filterMap fun d =>
    match lookupVal is d, (dates es).findIdx? (fun e => decide (e = d)) with
    | some x, some i =>
        if k ≤ i then (es[i - k]?).map fun p => (x, p.2) else none
    | _, _ => none

/-- Spec formulation of the negative-lag sweep: the indicator series is the
one shifted forward by `k = |lag|` positions, i.e. the target value at a
common date is paired with the indicator value `k` positions earlier in
the indicator's own index. -/
def specPairsIndicatorShift (is es : Series) (k : Nat) : List (ℚ × ℚ) :=
  (commonDates (dates is) (dates es)).filterMap fun d =>
    match (dates is).findIdx? (fun e => decide (e = d)), lookupVal es d with
    | some i, some y =>
        if k ≤ i then (is[i - k]?).map fun p => (p.2, y) else none
    | _, _ => none

/-- From the claim: the joint row set of the matrix — dates at which every
selected (available) column and the target have a defined value. -/
def jointDates (fred : Frame) (expo : RawSeries) (selected : List String) :
    List Date :=
  (allRowDates fred expo).filter fun d =>
    (matrixNames fred selected).all fun n =>
      ((lookupRaw (matrixCol fred expo n) d).bind id).isSome

/-- From the claim: the pairwise-complete rows of two columns — the dates
at which both have a defined value. -/
def pairwiseDates (c1 c2 : RawSeries) (rows : List Date) : List Date :=
  rows.filter fun d =>
    ((lookupRaw c1 d).bind id).isSome && ((lookupRaw c2 d).bind id).isSome

/-! ### Concrete data for witnesses and counterexamples -/

/-- A trivial stand-in for the (unconstrained) p-value function. -/
def pvalZero : List ℚ → List ℚ → ℚ := fun _ _ => 0

/-- Three months of indicator data, columns `A` (increasing) and
`B` (decreasing). -/
def fredW : Frame :=
  { idx := [0, 1, 2]
    cols := [("A", [some 1, some 2, some 4]), ("B", [some 4, some 2, some 1])] }

/-- Three months of export sales. -/
def expoW : RawSeries := [(0, some 1), (1, some 2), (2, some 3)]

/-- Tie-breaking data: `A` is a copy of the target (r = 1) and `B` its
reversal (r = -1), so the two absolute correlations tie exactly. -/
def fredTie : Frame :=
  { idx := [0, 1, 2]
    cols := [("A", [some 1, some 2, some 3]), ("B", [some 3, some 2, some 1])] }

/-- A constant (zero-variance) column `C` next to a regular column `B`. -/
def fredConst : Frame :=
  { idx := [0, 1, 2]
    cols := [("C", [some 5, some 5, some 5]), ("B", [some 1, some 2, some 4])] }

/-- Columns with disjoint valid rows: `A` is defined on months 0–2 only,
`B` on months 3–5 only, so their joint row set is empty while each still
overlaps the target. -/
def fredDisjoint : Frame :=
  { idx := [0, 1, 2, 3, 4, 5]
    cols := [("A", [some 1, some 2, some 4, none, none, none]),
             ("B", [none, none, none, some 1, some 2, some 4])] }

/-- Six months of export sales. -/
def expoLong : RawSeries :=
  [(0, some 1), (1, some 2), (2, some 3), (3, some 4), (4, some 5), (5, some 6)]

/-- Two correlation entries whose absolute correlations tie exactly
(`r = 1` and `r = -1`), supplied in the order `A`, `B`. -/
def corrsTie : List (String × CorrResult) :=
  [("A", ⟨⟨2, 2, 2⟩, 0, 3⟩), ("B", ⟨⟨-2, 2, 2⟩, 0, 3⟩)]

/-- Twenty-four months of strictly increasing data (for the window bound). -/
def fred24 : Frame :=
  { idx := (List.range 24).map fun i => (i : Int)
    cols := [("A", (List.range 24).map fun i => some ((i : ℚ) + 1))] }

/-- Twenty-four months of export sales. -/
def expo24 : RawSeries :=
  (List.range 24).map fun i => ((i : Int), some ((i : ℚ) * 2 + 1))

/-! ## Infrastructure lemmas -/

/-- Looking a key up in an association list built by `filterMap` over the
key list evaluates the generating function at the key. -/
theorem lookupA_filterMap {κ β : Type} [DecidableEq κ]
    (g : κ → Option β) (sel : List κ) (k : κ) :
    lookupA (sel.filterMap fun s => (g s).map fun b => (s, b)) k
      = if k ∈ sel then g k else none := by
  induction sel with
  | nil => simp [lookupA]
  | cons s sel ih =>
    by_cases hk : k = s
    · subst hk
      cases hg : g k with
      | none =>
        simp only [List.filterMap_cons, hg, Option.map_none']
        rw [ih]
        simp [hg]
      | some b =>
        simp [List.filterMap_cons, hg, lookupA]
    · cases hg : g s with
      | none =>
        simp only [List.filterMap_cons, hg, Option.map_none']
        rw [ih]
        simp [List.mem_cons, hk]
      | some b =>
        simp only [List.filterMap_cons, hg, Option.map_some']
        unfold lookupA
        rw [List.find?_cons_of_neg]
        · rw [← lookupA, ih]
          simp [List.mem_cons, hk]
        · simp [Ne.symm hk]

/-- A key whose generating function yields `none` never occurs in the
association list built by `filterMap` over the key list. -/
theorem not_mem_map_fst_filterMap {κ β : Type} (g : κ → Option β)
    (sel : List κ) (k : κ) (hg : g k = none) :
    k ∉ (sel.filterMap fun s => (g s).map fun b => (s, b)).map Prod.fst := by
  intro hmem
  rcases List.mem_map.1 hmem with ⟨p, hp, hfst⟩
  rcases List.mem_filterMap.1 hp with ⟨s, _, hs⟩
  rcases Option.map_eq_some'.1 hs with ⟨b, hb, hpb⟩
  cases hpb
  simp only at hfst
  rw [hfst] at hb
  rw [hg] at hb
  exact Option.noConfusion hb

/-- Inversion of a successful `corrOfSeries` computation. -/
theorem corrOfSeries_eq_some {pval : List ℚ → List ℚ → ℚ} {is es : Series}
    {cr : CorrResult} (h : corrOfSeries pval is es = some cr) :
    3 ≤ (commonDates (dates is) (dates es)).length ∧
      pearsonOpt (locVals is (commonDates (dates is) (dates es)))
        (locVals es (commonDates (dates is) (dates es))) = some cr.corr := by
  unfold corrOfSeries at h
  by_cases hlen : 3 ≤ (commonDates (dates is) (dates es)).length
  · rw [if_pos hlen] at h
    dsimp only at h
    refine ⟨hlen, ?_⟩
    cases hpe : pearsonOpt (locVals is (commonDates (dates is) (dates es)))
        (locVals es (commonDates (dates is) (dates es))) with
    | none => rw [hpe] at h; exact Option.noConfusion h
    | some p =>
      rw [hpe] at h
      cases h
      rfl
  · rw [if_neg hlen] at h
    exact Option.noConfusion h

/-- The lag-0 arm of the sweep body is the simultaneous-correlation body. -/
theorem lagCorrAt_zero (is es : Series) :
    lagCorrAt is es 0
      = if 3 ≤ (commonDates (dates is) (dates es)).length then
          pearsonOpt (locVals is (commonDates (dates is) (dates es)))
            (locVals es (commonDates (dates is) (dates es)))
        else none := by
  unfold lagCorrAt
  norm_num

/-- `analysis_data` assembly raises when a selected name is not a column. -/
theorem analysisRows_none_of_unknown {fred : Frame} {expo : RawSeries}
    {selected : List String} {ind : String} (hmem : ind ∈ selected)
    (hcol : fred.col? ind = none) :
    analysisRows fred expo selected = none := by
  unfold analysisRows
  rw [if_neg]
  intro hall
  have := (List.all_eq_true.mp hall) ind hmem
  rw [hcol] at this
  exact Bool.noConfusion this

/-- Row restriction keeps the column-name structure: a missing column is
still missing after windowing. -/
theorem col?_rowRestrict_none {f : Frame} {lo hi : Date} {name : String}
    (h : f.col? name = none) : (f.rowRestrict lo hi).col? name = none := by
  unfold Frame.col? Frame.rowRestrict at *
  simp only [Option.map_eq_none'] at h ⊢
  simp only [List.find?_eq_none] at h ⊢
  intro x hx
  rcases List.mem_map.1 hx with ⟨c, hc, hcx⟩
  subst hcx
  exact h c hc

/-- An association list built over the selected names is non-empty as soon
as one selected name produces a value. -/
theorem filterMap_assoc_not_empty {κ β : Type} (g : κ → Option β)
    (sel : List κ) (x : κ) (hx : x ∈ sel) (hg : (g x).isSome) :
    (sel.filterMap fun s => (g s).map fun b => (s, b)).isEmpty = false := by
  rcases Option.isSome_iff_exists.1 hg with ⟨b, hb⟩
  have hmem : (x, b) ∈ sel.filterMap fun s => (g s).map fun b => (s, b) :=
    List.mem_filterMap.2 ⟨x, hx, by rw [hb]; rfl⟩
  cases h : sel.filterMap fun s => (g s).map fun b => (s, b) with
  | nil => rw [h] at hmem; exact absurd hmem (List.not_mem_nil _)
  | cons hd tl => rfl

/-- A successful simultaneous correlation guarantees a lag dict containing
the lag-0 entry. -/
theorem lagMapAt_of_corrAt {pval : List ℚ → List ℚ → ℚ} {fred : Frame}
    {expo : RawSeries} {ind : String} {cr : CorrResult}
    (h : corrAt pval fred expo ind = some cr) :
    ∃ m, lagMapAt fred expo ind = some m ∧ ((0 : Int), cr.corr) ∈ m := by
  unfold corrAt at h
  cases hcol : fred.col? ind with
  | none => rw [hcol] at h; exact Option.noConfusion h
  | some rs =>
    rw [hcol] at h
    rcases corrOfSeries_eq_some h with ⟨hlen, hpe⟩
    have hz : lagCorrAt (dropna rs) (dropna expo) 0 = some cr.corr := by
      rw [lagCorrAt_zero, if_pos hlen, hpe]
    unfold lagMapAt
    rw [hcol]
    dsimp only
    have hmem0 : ((0 : Int), cr.corr) ∈ lagRange.filterMap fun lag =>
        (lagCorrAt (dropna rs) (dropna expo) lag).map fun p => (lag, p) :=
      List.mem_filterMap.2 ⟨0, by decide, by rw [hz]; rfl⟩
    rw [if_neg]
    · exact ⟨_, rfl, hmem0⟩
    · cases hl : lagRange.filterMap fun lag =>
          (lagCorrAt (dropna rs) (dropna expo) lag).map fun p => (lag, p) with
      | nil => rw [hl] at hmem0; exact absurd hmem0 (List.not_mem_nil _)
      | cons hd tl => simp

/-- `analysis_data` assembly succeeds when every selected name is a
column. -/
theorem analysisRows_isSome_of_known {fred : Frame} {expo : RawSeries}
    {selected : List String}
    (h : ∀ ind ∈ selected, (fred.col? ind).isSome) :
    ∃ rows, analysisRows fred expo selected = some rows := by
  unfold analysisRows
  rw [if_pos (List.all_eq_true.2 h)]
  exact ⟨_, rfl⟩

/-- A constant list has zero variance sum. -/
theorem varSum_const {xs : List ℚ} {c : ℚ} (h : ∀ x ∈ xs, x = c) :
    varSum xs = 0 := by
  cases xs with
  | nil => rfl
  | cons a l =>
    have hmean : mean (a :: l) = c := by
      unfold mean
      rw [List.sum_eq_card_nsmul (a :: l) c h]
      rw [nsmul_eq_mul]
      have hne : ((a :: l).length : ℚ) ≠ 0 := by
        rw [List.length_cons]
        exact_mod_cast Nat.succ_ne_zero l.length
      exact mul_div_cancel_left₀ c hne
    unfold varSum covSum
    apply List.sum_eq_zero
    intro x hx
    rcases List.mem_map.1 hx with ⟨p, hp, hpx⟩
    rcases List.of_mem_zip hp with ⟨h1, _⟩
    rw [← hpx, hmean, h p.1 h1]
    ring

/-- Pearson is undefined (`none`) whenever the left input is constant. -/
theorem pearsonOpt_none_left {xs ys : List ℚ} (h : varSum xs = 0) :
    pearsonOpt xs ys = none := by
  unfold pearsonOpt
  rw [if_pos (Or.inl h)]

/-- Values selected by `locVals` come from the series' values. -/
theorem mem_of_mem_locVals {s : Series} {ds : List Date} {x : ℚ}
    (h : x ∈ locVals s ds) : x ∈ s.map Prod.snd := by
  rcases List.mem_filterMap.1 h with ⟨d, _, hd⟩
  unfold lookupVal at hd
  rcases Option.map_eq_some'.1 hd with ⟨p, hp, hpx⟩
  exact hpx ▸ List.mem_map.2 ⟨p, List.mem_of_find?_eq_some hp, rfl⟩

/-- Values visible through a shifted series come from the series' values. -/
theorem mem_of_lookupRaw_shift {s : Series} {k : Nat} {d : Date} {x : ℚ}
    (h : lookupRaw (shift s k) d = some (some x)) : x ∈ s.map Prod.snd := by
  unfold lookupRaw shift at h
  rcases Option.map_eq_some'.1 h with ⟨p, hp, hpx⟩
  have hpz := List.mem_of_find?_eq_some hp
  rcases List.of_mem_zip hpz with ⟨_, h2⟩
  rcases List.mem_append.1 h2 with h3 | h3
  · rw [List.eq_of_mem_replicate h3] at hpx
    exact Option.noConfusion hpx
  · rcases List.mem_map.1 h3 with ⟨q, hq, hqp⟩
    rw [← hqp] at hpx
    rcases Option.some.inj hpx with h4
    exact h4 ▸ List.mem_map.2 ⟨q, hq, rfl⟩

/-- A constant indicator column yields no lag entry at any lag. -/
theorem lagCorrAt_none_of_const {is es : Series} {c : ℚ}
    (hconst : ∀ x ∈ is.map Prod.snd, x = c) (lag : Int) :
    lagCorrAt is es lag = none := by
  unfold lagCorrAt
  by_cases hpos : 0 < lag
  · rw [if_pos hpos]
    dsimp only
    split
    · split
      · apply pearsonOpt_none_left
        apply varSum_const
        intro x hx
        rcases List.mem_map.1 hx with ⟨p, hp, hpx⟩
        rcases List.mem_filterMap.1 hp with ⟨d, _, hd⟩
        rcases hv : lookupVal is d with _ | xv <;> rw [hv] at hd
        · exact Option.noConfusion hd
        · rcases hr : lookupRaw (shift es lag.toNat) d with _ | yv <;>
            rw [hr] at hd
          · exact Option.noConfusion hd
          · cases yv with
            | none => exact Option.noConfusion hd
            | some y =>
              cases hd
              apply hconst
              rw [← hpx]
              have : xv ∈ is.map Prod.snd := by
                unfold lookupVal at hv
                rcases Option.map_eq_some'.1 hv with ⟨q, hq, hqx⟩
                exact hqx ▸ List.mem_map.2
                  ⟨q, List.mem_of_find?_eq_some hq, rfl⟩
              exact this
      · rfl
    · rfl
  · rw [if_neg hpos]
    by_cases hneg : lag < 0
    · rw [if_pos hneg]
      dsimp only
      split
      · split
        · apply pearsonOpt_none_left
          apply varSum_const
          intro x hx
          rcases List.mem_map.1 hx with ⟨p, hp, hpx⟩
          rcases List.mem_filterMap.1 hp with ⟨d, _, hd⟩
          rcases hr : lookupRaw (shift is (-lag).toNat) d with _ | xv <;>
            rw [hr] at hd
          · exact Option.noConfusion hd
          · cases xv with
            | none => exact Option.noConfusion hd
            | some xv' =>
              rcases hv : lookupVal es d with _ | yv <;> rw [hv] at hd
              · exact Option.noConfusion hd
              · cases hd
                apply hconst
                rw [← hpx]
                exact mem_of_lookupRaw_shift hr
        · rfl
      · rfl
    · rw [if_neg hneg]
      dsimp only
      split
      · apply pearsonOpt_none_left
        apply varSum_const
        intro x hx
        exact hconst x (mem_of_mem_locVals hx)
      · rfl

/-- A constant indicator column yields no simultaneous entry. -/
theorem corrAt_none_of_const {pval : List ℚ → List ℚ → ℚ} {fred : Frame}
    {expo : RawSeries} {ind : String} {rs : RawSeries} {c : ℚ}
    (hcol : fred.col? ind = some rs)
    (hconst : ∀ x ∈ (dropna rs).map Prod.snd, x = c) :
    corrAt pval fred expo ind = none := by
  unfold corrAt
  rw [hcol]
  unfold corrOfSeries
  dsimp only
  split
  · rw [pearsonOpt_none_left (varSum_const fun x hx =>
      hconst x (mem_of_mem_locVals hx))]
  · rfl

/-- A constant indicator column yields no lag dict at all. -/
theorem lagMapAt_none_of_const {fred : Frame} {expo : RawSeries}
    {ind : String} {rs : RawSeries} {c : ℚ}
    (hcol : fred.col? ind = some rs)
    (hconst : ∀ x ∈ (dropna rs).map Prod.snd, x = c) :
    lagMapAt fred expo ind = none := by
  unfold lagMapAt
  rw [hcol]
  dsimp only
  have hnil : (lagRange.filterMap fun lag =>
      (lagCorrAt (dropna rs) (dropna expo) lag).map fun p => (lag, p)) = [] := by
    apply List.filterMap_eq_nil_iff.2
    intro lag _
    rw [lagCorrAt_none_of_const hconst lag]
    rfl
  rw [hnil]
  rfl

/-- Inserting preserves the multiset of elements. -/
theorem insertBy_perm {α : Type} (bef : α → α → Bool) (a : α) (l : List α) :
    List.Perm (insertBy bef a l) (a :: l) := by
  induction l with
  | nil => rfl
  | cons b bs ih =>
    unfold insertBy
    split
    · rfl
    · exact (ih.cons b).trans (List.Perm.swap a b bs)

/-- Insertion sort permutes its input. -/
theorem sortBy_perm {α : Type} (bef : α → α → Bool) (l : List α) :
    List.Perm (sortBy bef l) l := by
  induction l with
  | nil => rfl
  | cons a as ih => exact (insertBy_perm bef a (sortBy bef as)).trans (ih.cons a)

/-- An enumerated element's payload is an element of the list. -/
theorem snd_mem_of_mem_enum {α : Type} {p : Nat × α} {l : List α}
    (h : p ∈ l.enum) : p.2 ∈ l := by
  have hg := List.mem_enum_iff_getElem?.1 h
  exact List.getElem?_mem hg

/-- Rows of the descending sort come from the input rows. -/
theorem mem_of_mem_sortValuesDesc {α : Type} {key : α → Pcorr}
    {rows : List α} {x : α} (h : x ∈ sortValuesDesc key rows) : x ∈ rows := by
  unfold sortValuesDesc at h
  rcases List.mem_map.1 h with ⟨p, hp, hpx⟩
  have hpe : p ∈ rows.enum :=
    (sortBy_perm (sortValuesDescBefore key) rows.enum).mem_iff.1 hp
  exact hpx ▸ snd_mem_of_mem_enum hpe

/-- A positional shift leaves the index unchanged. -/
theorem rawDates_shift (s : Series) (k : Nat) :
    rawDates (shift s k) = dates s := by
  unfold rawDates shift dates
  apply List.map_fst_zip
  simp only [List.length_map, List.length_append, List.length_replicate]
  omega

/-- `find?` on a zipped list is lookup at the first matching index. -/
theorem find?_zip_eq {α : Type} (L : List Date) (V : List α) (d : Date)
    (hl : L.length ≤ V.length) :
    (L.zip V).find? (fun p => decide (p.1 = d))
      = (L.findIdx? (fun e => decide (e = d))).bind fun i =>
          (V[i]?).map fun v => (d, v) := by
  induction L generalizing V with
  | nil => simp
  | cons a L ih =>
    cases V with
    | nil => simp at hl
    | cons v V =>
      rw [List.zip_cons_cons, List.findIdx?_cons]
      by_cases hd : a = d
      · subst hd
        rw [List.find?_cons_of_pos _ (by simp)]
        simp
      · rw [List.find?_cons_of_neg _ (by simp [hd])]
        rw [if_neg (by simp [hd])]
        rw [show (1 : Nat) = 0 + 1 from rfl, List.findIdx?_succ]
        rw [ih V (by simpa using Nat.le_of_succ_le_succ (by simpa using hl))]
        cases h : L.findIdx? (fun e => decide (e = d)) with
        | none => simp
        | some i => simp [List.getElem?_cons_succ]

/-- The first index of a present date exists and is within bounds. -/
theorem findIdx?_mem_bound {L : List Date} {d : Date} (h : d ∈ L) :
    ∃ i, L.findIdx? (fun e => decide (e = d)) = some i ∧ i < L.length := by
  induction L with
  | nil => cases h
  | cons a L ih =>
    rw [List.findIdx?_cons]
    by_cases hd : a = d
    · exact ⟨0, by rw [if_pos (by simp [hd])], by simp⟩
    · have h1 : d ∈ L := by
        rcases List.mem_cons.1 h with h2 | h2
        · exact absurd h2.symm hd
        · exact h2
      rcases ih h1 with ⟨i, hi, hlt⟩
      refine ⟨i + 1, ?_, by simp only [List.length_cons]; omega⟩
      rw [if_neg (by simp [hd])]
      rw [show (1 : Nat) = 0 + 1 from rfl, List.findIdx?_succ, hi]
      rfl

/-- A present date always has a looked-up value. -/
theorem lookupVal_of_mem {s : Series} {d : Date} (h : d ∈ dates s) :
    ∃ x, lookupVal s d = some x := by
  have hs : (s.find? fun p => decide (p.1 = d)).isSome = true := by
    apply List.find?_isSome.2
    rcases List.mem_map.1 h with ⟨p, hp, hpd⟩
    exact ⟨p, hp, by simp [hpd]⟩
  rcases Option.isSome_iff_exists.1 hs with ⟨p, hp⟩
  exact ⟨p.2, by unfold lookupVal; rw [hp]; rfl⟩

/-- Looking a date up in a shifted series reads the value `k` positions
earlier in the series' own index (NaN within the first `k` positions). -/
theorem lookupRaw_shift_eq {es : Series} {k : Nat} {d : Date} {i : Nat}
    (hidx : (dates es).findIdx? (fun e => decide (e = d)) = some i)
    (hlt : i < es.length) :
    lookupRaw (shift es k) d
      = some (if i < k then none else (es[i - k]?).map Prod.snd) := by
  unfold dates at hidx
  unfold lookupRaw shift
  rw [find?_zip_eq (es.map Prod.fst) _ d (by
    simp only [List.length_map, List.length_append, List.length_replicate]
    omega)]
  rw [hidx]
  simp only [Option.some_bind]
  by_cases hik : i < k
  · rw [if_pos hik]
    rw [List.getElem?_append]
    rw [if_pos (by simp only [List.length_replicate]; omega)]
    rw [List.getElem?_replicate, if_pos hik]
    rfl
  · rw [if_neg hik]
    rw [List.getElem?_append_right (by
      simp only [List.length_replicate]
      omega)]
    rw [List.length_replicate]
    rw [List.getElem?_map]
    have hbound : i - k < es.length := by omega
    rw [List.getElem?_eq_getElem hbound]
    rfl

/-- The positive-lag pair list of the code (align, then mask the NaNs the
shift introduced) is the spec's positional pairing with the target shifted
forward. -/
theorem lagPairsPos_eq_spec (is es : Series) (k : Nat) :
    ((commonDates (dates is) (dates es)).filterMap fun d =>
        match lookupVal is d, lookupRaw (shift es k) d with
        | some x, some (some y) => some (x, y)
        | _, _ => none)
      = specPairsTargetShift is es k := by
  unfold specPairsTargetShift
  apply List.filterMap_congr
  intro d hd
  have hdis : d ∈ dates is := (List.mem_filter.1 hd).1
  have hdes : d ∈ dates es := by
    have := (List.mem_filter.1 hd).2
    simpa using this
  rcases lookupVal_of_mem hdis with ⟨x, hx⟩
  rcases findIdx?_mem_bound hdes with ⟨i, hi, hlt⟩
  have hlt' : i < es.length := by
    simpa [dates, List.length_map] using hlt
  rw [hx, hi, lookupRaw_shift_eq hi hlt']
  by_cases hik : i < k
  · rw [if_pos hik]
    dsimp only
    rw [if_neg (by omega : ¬ k ≤ i)]
  · rw [if_neg hik]
    have hbound : i - k < es.length := by omega
    rw [List.getElem?_eq_getElem hbound]
    dsimp only [Option.map_some']
    rw [if_pos (by omega : k ≤ i)]
    rw [List.getElem?_eq_getElem hbound]
    rfl

/-- The negative-lag pair list of the code is the spec's positional pairing
with the indicator shifted forward. -/
theorem lagPairsNeg_eq_spec (is es : Series) (k : Nat) :
    ((commonDates (dates is) (dates es)).filterMap fun d =>
        match lookupRaw (shift is k) d, lookupVal es d with
        | some (some x), some y => some (x, y)
        | _, _ => none)
      = specPairsIndicatorShift is es k := by
  unfold specPairsIndicatorShift
  apply List.filterMap_congr
  intro d hd
  have hdis : d ∈ dates is := (List.mem_filter.1 hd).1
  have hdes : d ∈ dates es := by
    have := (List.mem_filter.1 hd).2
    simpa using this
  rcases lookupVal_of_mem hdes with ⟨y, hy⟩
  rcases findIdx?_mem_bound hdis with ⟨i, hi, hlt⟩
  have hlt' : i < is.length := by
    simpa [dates, List.length_map] using hlt
  rw [hy, hi, lookupRaw_shift_eq hi hlt']
  by_cases hik : i < k
  · rw [if_pos hik]
    dsimp only
    rw [if_neg (by omega : ¬ k ≤ i)]
  · rw [if_neg hik]
    have hbound : i - k < is.length := by omega
    rw [List.getElem?_eq_getElem hbound]
    dsimp only [Option.map_some']
    rw [if_pos (by omega : k ≤ i)]
    rw [List.getElem?_eq_getElem hbound]
    rfl

/-- Zipping a list with itself duplicates each element. -/
theorem zip_self (l : List ℚ) : l.zip l = l.map fun a => (a, a) := by
  have h := List.zip_map' (id : ℚ → ℚ) (id : ℚ → ℚ) l
  simpa using h

/-- Re-zipping the projections of a pair list recovers the list. -/
theorem zip_proj (ps : List (ℚ × ℚ)) :
    (ps.map Prod.fst).zip (ps.map Prod.snd) = ps := by
  rw [List.zip_map']
  simp

/-- The variance sum is a sum of squares. -/
theorem varSum_eq_sq (xs : List ℚ) :
    varSum xs = (xs.map fun x => (x - mean xs) * (x - mean xs)).sum := by
  unfold varSum covSum
  rw [zip_self, List.map_map]
  rfl

/-- The variance sum is nonnegative. -/
theorem varSum_nonneg (xs : List ℚ) : 0 ≤ varSum xs := by
  rw [varSum_eq_sq]
  apply List.sum_nonneg
  intro x hx
  rcases List.mem_map.1 hx with ⟨a, _, ha⟩
  rw [← ha]
  exact mul_self_nonneg _

/-- The covariance sum of a pair list's projections is symmetric. -/
theorem covSum_pairs_comm (ps : List (ℚ × ℚ)) :
    covSum (ps.map Prod.snd) (ps.map Prod.fst)
      = covSum (ps.map Prod.fst) (ps.map Prod.snd) := by
  unfold covSum
  rw [List.zip_map', List.zip_map', List.map_map, List.map_map]
  apply congrArg List.sum
  apply List.map_congr_left
  intro p _
  dsimp [Function.comp]
  ring

/-- Swapping every pair swaps the variance sums and keeps the covariance
sum (hence mirrors the Pearson statistic). -/
theorem pearsonPairs_swap (ps : List (ℚ × ℚ)) :
    pearsonPairs (ps.map Prod.swap)
      = (pearsonPairs ps).map fun p => ⟨p.cov, p.vy, p.vx⟩ := by
  unfold pearsonPairs pearsonOpt
  have hf : (ps.map Prod.swap).map Prod.fst = ps.map Prod.snd := by
    rw [List.map_map]
    rfl
  have hs : (ps.map Prod.swap).map Prod.snd = ps.map Prod.fst := by
    rw [List.map_map]
    rfl
  rw [hf, hs, covSum_pairs_comm]
  by_cases h1 : varSum (ps.map Prod.fst) = 0 <;>
    by_cases h2 : varSum (ps.map Prod.snd) = 0 <;>
    simp [h1, h2]

/-- Reading two columns' pairs in mirrored order swaps each pair. -/
theorem filterMap_pairAt_swap (c1 c2 : RawSeries) (rows : List Date) :
    rows.filterMap (pairAt c2 c1)
      = (rows.filterMap (pairAt c1 c2)).map Prod.swap := by
  rw [List.map_filterMap]
  apply List.filterMap_congr
  intro d _
  unfold pairAt
  cases h1 : lookupRaw c1 d with
  | none =>
    cases h2 : lookupRaw c2 d with
    | none => rfl
    | some v2 => cases v2 <;> rfl
  | some v1 =>
    cases v1 with
    | none =>
      cases h2 : lookupRaw c2 d with
      | none => rfl
      | some v2 => cases v2 <;> rfl
    | some x =>
      cases h2 : lookupRaw c2 d with
      | none => rfl
      | some v2 => cases v2 <;> rfl

/-- Mirrored matrix cells hold the mirrored statistic. -/
theorem matrixEntry_symm_struct (fred : Frame) (expo : RawSeries)
    (x y : String) :
    matrixEntry fred expo y x
      = (matrixEntry fred expo x y).map fun p => ⟨p.cov, p.vy, p.vx⟩ := by
  unfold matrixEntry
  rw [filterMap_pairAt_swap]
  exact pearsonPairs_swap _

/-- The real Pearson value ignores the order of the variance sums. -/
theorem pcorrVal_swap (c vx vy : ℚ) :
    Pcorr.val ⟨c, vy, vx⟩ = Pcorr.val ⟨c, vx, vy⟩ := by
  unfold Pcorr.val
  dsimp only
  rw [mul_comm]

/-- A self-pair has equal components. -/
theorem pairAt_self_eq {c : RawSeries} {d : Date} {q : ℚ × ℚ}
    (h : pairAt c c d = some q) : q.1 = q.2 := by
  unfold pairAt at h
  cases h1 : lookupRaw c d with
  | none =>
    rw [h1] at h
    exact Option.noConfusion h
  | some v =>
    rw [h1] at h
    cases v with
    | none => exact Option.noConfusion h
    | some x =>
      cases h
      rfl

/-- A defined diagonal cell always has real value 1. -/
theorem matrixEntry_diag_val {fred : Frame} {expo : RawSeries} {x : String}
    {p : Pcorr} (h : matrixEntry fred expo x x = some p) : p.val = 1 := by
  unfold matrixEntry pearsonPairs at h
  have heq : ((allRowDates fred expo).filterMap
        (pairAt (matrixCol fred expo x) (matrixCol fred expo x))).map Prod.snd
      = ((allRowDates fred expo).filterMap
        (pairAt (matrixCol fred expo x) (matrixCol fred expo x))).map Prod.fst := by
    apply List.map_congr_left
    intro q hq
    rcases List.mem_filterMap.1 hq with ⟨d, _, hd⟩
    exact (pairAt_self_eq hd).symm
  rw [heq] at h
  unfold pearsonOpt at h
  by_cases hv : varSum (((allRowDates fred expo).filterMap
      (pairAt (matrixCol fred expo x) (matrixCol fred expo x))).map Prod.fst) = 0
  · rw [if_pos (Or.inl hv)] at h
    exact Option.noConfusion h
  · rw [if_neg (by simp [hv])] at h
    cases h
    unfold Pcorr.val
    dsimp only
    have hpos : (0 : ℚ) < varSum (((allRowDates fred expo).filterMap
        (pairAt (matrixCol fred expo x) (matrixCol fred expo x))).map Prod.fst) :=
      lt_of_le_of_ne (varSum_nonneg _) (Ne.symm hv)
    have hcast : (0 : ℝ) < ((varSum (((allRowDates fred expo).filterMap
        (pairAt (matrixCol fred expo x)
          (matrixCol fred expo x))).map Prod.fst) : ℚ) : ℝ) := by
      exact_mod_cast hpos
    rw [Real.mul_self_sqrt (le_of_lt hcast)]
    exact div_self (ne_of_gt hcast)

/-- `filterMap` only consumes the rows on which it succeeds. -/
theorem filterMap_eq_filter_isSome {α β : Type} (f : α → Option β)
    (l : List α) :
    l.filterMap f = (l.filter fun a => (f a).isSome).filterMap f := by
  induction l with
  | nil => rfl
  | cons a l ih =>
    cases h : f a with
    | none => simp [List.filterMap_cons, List.filter_cons, h, ih]
    | some b => simp [List.filterMap_cons, List.filter_cons, h, ih]

/-- A row produces a pair exactly when both columns are defined there. -/
theorem pairAt_isSome_eq (c1 c2 : RawSeries) (d : Date) :
    (pairAt c1 c2 d).isSome
      = (((lookupRaw c1 d).bind id).isSome &&
          ((lookupRaw c2 d).bind id).isSome) := by
  unfold pairAt
  cases h1 : lookupRaw c1 d with
  | none =>
    cases h2 : lookupRaw c2 d with
    | none => rfl
    | some v2 => cases v2 <;> rfl
  | some v1 =>
    cases v1 with
    | none =>
      cases h2 : lookupRaw c2 d with
      | none => rfl
      | some v2 => cases v2 <;> rfl
    | some x =>
      cases h2 : lookupRaw c2 d with
      | none => rfl
      | some v2 => cases v2 <;> rfl

/-- Concrete evaluation: the diagonal cell of column `A` of `fredW`. -/
theorem matrixEntry_fredW_AA_eval :
    matrixEntry fredW expoW "A" "A" = some ⟨14/3, 14/3, 14/3⟩ := by
  have hrows : allRowDates fredW expoW = [0, 1, 2] := by decide
  have hcol : matrixCol fredW expoW "A"
      = [(0, some 1), (1, some 2), (2, some 4)] := by decide
  have hpairs : ([0, 1, 2] : List Date).filterMap
      (pairAt [(0, some 1), (1, some 2), (2, some 4)]
        [(0, some 1), (1, some 2), (2, some 4)])
      = [(1, 1), (2, 2), (4, 4)] := by decide
  unfold matrixEntry
  rw [hrows, hcol, hpairs]
  norm_num [pearsonPairs, pearsonOpt, varSum, covSum, mean,
    List.zip, List.zipWith]

/-- Indices of an enumeration are strictly increasing. -/
theorem pairwise_fst_lt_enumFrom {α : Type} (l : List α) (n : Nat) :
    List.Pairwise (fun p q => p.1 < q.1) (l.enumFrom n) := by
  induction l generalizing n with
  | nil => exact List.Pairwise.nil
  | cons a l ih =>
    rw [show (a :: l).enumFrom n = (n, a) :: l.enumFrom (n + 1) from rfl]
    refine List.pairwise_cons.2 ⟨?_, ih (n + 1)⟩
    intro q hq
    rcases q with ⟨i, x⟩
    have := (List.mem_enumFrom hq).1
    simp only
    omega

/-- Indices of `List.enum` are strictly increasing. -/
theorem pairwise_fst_lt_enum {α : Type} (l : List α) :
    List.Pairwise (fun p q => p.1 < q.1) l.enum :=
  pairwise_fst_lt_enumFrom l 0

/-- `insertBy` keeps a sorted list sorted when the inserted element is
comparable with every element. -/
theorem insertBy_pairwise {α : Type} (bef : α → α → Bool)
    (htrans : ∀ {x y z}, bef x y = true → bef y z = true → bef x z = true)
    (a : α) (l : List α)
    (hsorted : List.Pairwise (fun x y => bef x y = true) l)
    (hcmp : ∀ x ∈ l, bef a x = true ∨ bef x a = true) :
    List.Pairwise (fun x y => bef x y = true) (insertBy bef a l) := by
  induction l with
  | nil => simp [insertBy]
  | cons b bs ih =>
    rw [show insertBy bef a (b :: bs)
      = if bef a b then a :: b :: bs else b :: insertBy bef a bs from rfl]
    by_cases hab : bef a b = true
    · rw [if_pos hab]
      refine List.pairwise_cons.2 ⟨?_, hsorted⟩
      intro x hx
      rcases List.mem_cons.1 hx with h | h
      · exact h ▸ hab
      · exact htrans hab ((List.pairwise_cons.1 hsorted).1 x h)
    · rw [if_neg hab]
      have hba : bef b a = true := by
        rcases hcmp b (List.mem_cons_self b bs) with h | h
        · exact absurd h hab
        · exact h
      refine List.pairwise_cons.2 ⟨?_, ?_⟩
      · intro x hx
        have hx' : x ∈ a :: bs := (insertBy_perm bef a bs).mem_iff.1 hx
        rcases List.mem_cons.1 hx' with h | h
        · exact h ▸ hba
        · exact (List.pairwise_cons.1 hsorted).1 x h
      · exact ih (List.pairwise_cons.1 hsorted).2
          fun x hx => hcmp x (List.mem_cons_of_mem b hx)

/-- Insertion sort sorts any list whose elements are pairwise comparable
under a transitive strict order. -/
theorem sortBy_pairwise {α : Type} (bef : α → α → Bool)
    (htrans : ∀ {x y z}, bef x y = true → bef y z = true → bef x z = true)
    (l : List α)
    (htot : List.Pairwise (fun x y => bef x y = true ∨ bef y x = true) l) :
    List.Pairwise (fun x y => bef x y = true) (sortBy bef l) := by
  induction l with
  | nil => exact List.Pairwise.nil
  | cons a as ih =>
    rw [show sortBy bef (a :: as) = insertBy bef a (sortBy bef as) from rfl]
    apply insertBy_pairwise bef htrans a _
      (ih (List.pairwise_cons.1 htot).2)
    intro x hx
    exact (List.pairwise_cons.1 htot).1 x ((sortBy_perm bef as).mem_iff.1 hx)

/-- The descending-sort order of the rankers is transitive. -/
theorem before_trans {α : Type} {key : α → Pcorr} {x y z : Nat × α}
    (h1 : sortValuesDescBefore key x y = true)
    (h2 : sortValuesDescBefore key y z = true) :
    sortValuesDescBefore key x z = true := by
  unfold sortValuesDescBefore at *
  simp only [Bool.or_eq_true, Bool.and_eq_true, decide_eq_true_eq] at *
  rcases h1 with h1 | ⟨h1e, h1i⟩ <;> rcases h2 with h2 | ⟨h2e, h2i⟩
  · exact Or.inl (lt_trans h2 h1)
  · exact Or.inl (h2e ▸ h1)
  · exact Or.inl (lt_of_lt_of_le h2 (le_of_eq h1e.symm))
  · exact Or.inr ⟨h1e.trans h2e, lt_trans h2i h1i⟩

/-- The descending-sort order is total on rows with distinct positions. -/
theorem before_total {α : Type} (key : α → Pcorr) {x y : Nat × α}
    (hne : x.1 ≠ y.1) :
    sortValuesDescBefore key x y = true ∨
      sortValuesDescBefore key y x = true := by
  unfold sortValuesDescBefore
  simp only [Bool.or_eq_true, Bool.and_eq_true, decide_eq_true_eq]
  rcases lt_trichotomy ((key x.2).absSq) ((key y.2).absSq) with h | h | h
  · exact Or.inr (Or.inl h)
  · rcases Nat.lt_or_ge x.1 y.1 with hi | hi
    · exact Or.inr (Or.inr ⟨h.symm, hi⟩)
    · exact Or.inl (Or.inr ⟨h, lt_of_le_of_ne hi (Ne.symm hne)⟩)
  · exact Or.inl (Or.inl h)

/-- The squared-key is nonnegative for positive variance sums. -/
theorem absSq_nonneg {p : Pcorr} (hx : 0 < p.vx) (hy : 0 < p.vy) :
    0 ≤ p.absSq := by
  unfold Pcorr.absSq
  apply div_nonneg (sq_nonneg _)
  positivity

/-- With positive variance sums, the absolute real correlation value is
the square root of the rational squared key. -/
theorem abs_val_eq_sqrt {p : Pcorr} (hx : 0 < p.vx) (_hy : 0 < p.vy) :
    |p.val| = Real.sqrt ((p.absSq : ℚ) : ℝ) := by
  unfold Pcorr.val Pcorr.absSq
  have hx' : (0 : ℝ) < (p.vx : ℝ) := by exact_mod_cast hx
  push_cast
  rw [Real.sqrt_div (sq_nonneg _), Real.sqrt_sq_eq_abs,
    Real.sqrt_mul (le_of_lt hx'), abs_div, abs_mul,
    abs_of_nonneg (Real.sqrt_nonneg _), abs_of_nonneg (Real.sqrt_nonneg _)]

/-- The rational key order is the real absolute-value order. -/
theorem absSq_lt_iff {p q : Pcorr} (hpx : 0 < p.vx) (hpy : 0 < p.vy)
    (hqx : 0 < q.vx) (hqy : 0 < q.vy) :
    p.absSq < q.absSq ↔ |p.val| < |q.val| := by
  rw [abs_val_eq_sqrt hpx hpy, abs_val_eq_sqrt hqx hqy]
  constructor
  · intro h
    exact Real.sqrt_lt_sqrt (by exact_mod_cast absSq_nonneg hpx hpy)
      (by exact_mod_cast h)
  · intro h
    by_contra hle
    push_neg at hle
    have hc : ((q.absSq : ℚ) : ℝ) ≤ ((p.absSq : ℚ) : ℝ) := by exact_mod_cast hle
    have := Real.sqrt_le_sqrt hc
    linarith

/-- The rational key equality is the real absolute-value equality. -/
theorem absSq_eq_iff {p q : Pcorr} (hpx : 0 < p.vx) (hpy : 0 < p.vy)
    (hqx : 0 < q.vx) (hqy : 0 < q.vy) :
    p.absSq = q.absSq ↔ |p.val| = |q.val| := by
  constructor
  · intro h
    rw [abs_val_eq_sqrt hpx hpy, abs_val_eq_sqrt hqx hqy]
    exact congrArg Real.sqrt (by exact_mod_cast h)
  · intro h
    rcases lt_trichotomy p.absSq q.absSq with hlt | heq | hgt
    · have := (absSq_lt_iff hpx hpy hqx hqy).1 hlt
      rw [h] at this
      exact absurd this (lt_irrefl _)
    · exact heq
    · have := (absSq_lt_iff hqx hqy hpx hpy).1 hgt
      rw [h] at this
      exact absurd this (lt_irrefl _)

/-- Full behaviour of the descending sort on rows with positive variance
sums: it permutes the position-enumerated rows into strictly decreasing
(real) absolute correlation, ties broken by decreasing original
position. -/
theorem sortValuesDesc_spec {α : Type} (key : α → Pcorr) (rows : List α)
    (hpos : ∀ r ∈ rows, 0 < (key r).vx ∧ 0 < (key r).vy) :
    List.Perm (sortBy (sortValuesDescBefore key) rows.enum) rows.enum ∧
    (sortBy (sortValuesDescBefore key) rows.enum).Pairwise (fun a b =>
      |(key b.2).val| < |(key a.2).val| ∨
        (|(key a.2).val| = |(key b.2).val| ∧ b.1 < a.1)) ∧
    sortValuesDesc key rows
      = (sortBy (sortValuesDescBefore key) rows.enum).map Prod.snd := by
  refine ⟨sortBy_perm _ _, ?_, rfl⟩
  have hsorted := sortBy_pairwise (sortValuesDescBefore key)
    (fun h1 h2 => before_trans h1 h2) rows.enum
    ((pairwise_fst_lt_enum rows).imp
      fun h => before_total key (Nat.ne_of_lt h))
  apply hsorted.imp_of_mem
  intro a b ha hb hbef
  have hamem : a.2 ∈ rows :=
    snd_mem_of_mem_enum ((sortBy_perm _ _).mem_iff.1 ha)
  have hbmem : b.2 ∈ rows :=
    snd_mem_of_mem_enum ((sortBy_perm _ _).mem_iff.1 hb)
  rcases hpos a.2 hamem with ⟨hax, hay⟩
  rcases hpos b.2 hbmem with ⟨hbx, hby⟩
  unfold sortValuesDescBefore at hbef
  simp only [Bool.or_eq_true, Bool.and_eq_true, decide_eq_true_eq] at hbef
  rcases hbef with h | ⟨he, hi⟩
  · exact Or.inl ((absSq_lt_iff hbx hby hax hay).1 h)
  · exact Or.inr ⟨(absSq_eq_iff hax hay hbx hby).1 he, hi⟩

/-- Concrete evaluation: the descending sort puts the later-supplied of
two tied entries first. -/
theorem getTop_corrsTie_eval :
    getTopCorrelations corrsTie 5
      = some [("B", ⟨⟨-2, 2, 2⟩, 0, 3⟩), ("A", ⟨⟨2, 2, 2⟩, 0, 3⟩)] := by
  norm_num [getTopCorrelations, corrsTie, sortValuesDesc, sortBy, insertBy,
    sortValuesDescBefore, Pcorr.absSq, List.enum, List.enumFrom]

/-- Concrete evaluation: ranking a single lagged entry. -/
theorem getTopLagged_tie_eval :
    getTopLaggedCorrelations [("A", [(0, ⟨2, 2, 2⟩)])] 3
      = some [("A", 0, ⟨2, 2, 2⟩)] := by
  norm_num [getTopLaggedCorrelations, sortValuesDesc, sortBy, insertBy,
    sortValuesDescBefore, Pcorr.absSq, List.enum, List.enumFrom, List.flatMap]

/-- A duplicate-free list of integers inside a closed interval has at most
interval-length-plus-one elements. -/
theorem length_le_of_nodup_mem_Icc {l : List Int} (hl : l.Nodup)
    {lo hi : Int} (hmem : ∀ d ∈ l, lo ≤ d ∧ d ≤ hi) :
    l.length ≤ (hi + 1 - lo).toNat := by
  have hcard : l.toFinset.card = l.length := List.toFinset_card_of_nodup hl
  have hsub : l.toFinset ⊆ Finset.Icc lo hi := by
    intro d hd
    rcases hmem d (List.mem_toFinset.1 hd) with ⟨h1, h2⟩
    exact Finset.mem_Icc.2 ⟨h1, h2⟩
  have := Finset.card_le_card hsub
  rw [hcard, Int.card_Icc] at this
  exact this

/-- Ranked simultaneous rows come from the correlation dict. -/
theorem mem_of_mem_getTopCorrelations {corrs : List (String × CorrResult)}
    {n : Nat} {row : String × CorrResult}
    (h : row ∈ (getTopCorrelations corrs n).getD []) : row ∈ corrs := by
  unfold getTopCorrelations at h
  by_cases he : corrs.isEmpty
  · rw [if_pos he] at h
    exact absurd h (List.not_mem_nil _)
  · rw [if_neg he] at h
    simp only [Option.getD_some] at h
    exact mem_of_mem_sortValuesDesc (List.take_subset _ _ h)

/-- Ranked lagged rows come from the flattened lag dicts. -/
theorem mem_of_mem_getTopLagged {lagRes : List (String × List (Int × Pcorr))}
    {n : Nat} {row : String × Int × Pcorr}
    (h : row ∈ (getTopLaggedCorrelations lagRes n).getD []) :
    row ∈ lagRes.flatMap fun r => r.2.map fun lp => (r.1, lp.1, lp.2) := by
  unfold getTopLaggedCorrelations at h
  dsimp only at h
  by_cases he : (lagRes.flatMap fun r => r.2.map fun lp =>
      (r.1, lp.1, lp.2)).isEmpty
  · rw [if_pos he] at h
    exact absurd h (List.not_mem_nil _)
  · rw [if_neg he] at h
    simp only [Option.getD_some] at h
    exact mem_of_mem_sortValuesDesc (List.take_subset _ _ h)

/-- Concrete evaluation: the simultaneous correlation of column `A`. -/
theorem corrAt_fredW_A :
    corrAt pvalZero fredW expoW "A" = some ⟨⟨3, 14/3, 2⟩, 0, 3⟩ := by
  norm_num [corrAt, corrOfSeries, Frame.col?, dropna, dates, commonDates, locVals,
    lookupVal, pearsonOpt, varSum, covSum, mean, fredW, expoW, pvalZero,
    List.find?, List.filterMap, List.filter, List.zip, List.zipWith]

/-- Concrete evaluation: the simultaneous correlation of column `B` of
`fredConst` (same values as column `A` of `fredW`). -/
theorem corrAt_fredConst_B :
    corrAt pvalZero fredConst expoW "B" = some ⟨⟨3, 14/3, 2⟩, 0, 3⟩ := by
  have hcol : fredConst.col? "B" = some [(0, some 1), (1, some 2), (2, some 4)] := by
    decide
  unfold corrAt
  rw [hcol]
  norm_num [corrOfSeries, dropna, dates, commonDates, locVals,
    lookupVal, pearsonOpt, varSum, covSum, mean, expoW, pvalZero,
    List.find?, List.filterMap, List.filter, List.zip, List.zipWith]

/-- Concrete evaluation: the simultaneous-correlation dict on `fredW`. -/
theorem calcCorrelations_fredW_eval :
    lookupA (calcCorrelations pvalZero fredW expoW ["A"]) "A"
      = some ⟨⟨3, 14/3, 2⟩, 0, 3⟩ := by
  rw [calcCorrelations, lookupA_filterMap,
    if_pos (by decide : "A" ∈ ["A"])]
  exact corrAt_fredW_A

/-- Concrete evaluation: the lag dict of column `A` (three data points, so
every non-zero lag leaves fewer than three valid pairs). -/
theorem lagMapAt_fredW_eval :
    lagMapAt fredW expoW "A" = some [(0, ⟨3, 14/3, 2⟩)] := by
  have hcol : fredW.col? "A" = some [(0, some 1), (1, some 2), (2, some 4)] := by
    decide
  have hrange :
      lagRange = [-6, -5, -4, -3, -2, -1, 0, 1, 2, 3, 4, 5, 6] := by decide
  unfold lagMapAt
  rw [hcol]
  dsimp only
  have hdropA : dropna [(0, some 1), (1, some 2), (2, some 4)]
      = [(0, 1), (1, 2), (2, 4)] := by decide
  have hdropE : dropna expoW = [(0, 1), (1, 2), (2, 3)] := by decide
  have hm6 : lagCorrAt [(0, 1), (1, 2), (2, 4)] [(0, 1), (1, 2), (2, 3)] (-6)
      = none := by decide
  have hm5 : lagCorrAt [(0, 1), (1, 2), (2, 4)] [(0, 1), (1, 2), (2, 3)] (-5)
      = none := by decide
  have hm4 : lagCorrAt [(0, 1), (1, 2), (2, 4)] [(0, 1), (1, 2), (2, 3)] (-4)
      = none := by decide
  have hm3 : lagCorrAt [(0, 1), (1, 2), (2, 4)] [(0, 1), (1, 2), (2, 3)] (-3)
      = none := by decide
  have hm2 : lagCorrAt [(0, 1), (1, 2), (2, 4)] [(0, 1), (1, 2), (2, 3)] (-2)
      = none := by decide
  have hm1 : lagCorrAt [(0, 1), (1, 2), (2, 4)] [(0, 1), (1, 2), (2, 3)] (-1)
      = none := by decide
  have hp1 : lagCorrAt [(0, 1), (1, 2), (2, 4)] [(0, 1), (1, 2), (2, 3)] 1
      = none := by decide
  have hp2 : lagCorrAt [(0, 1), (1, 2), (2, 4)] [(0, 1), (1, 2), (2, 3)] 2
      = none := by decide
  have hp3 : lagCorrAt [(0, 1), (1, 2), (2, 4)] [(0, 1), (1, 2), (2, 3)] 3
      = none := by decide
  have hp4 : lagCorrAt [(0, 1), (1, 2), (2, 4)] [(0, 1), (1, 2), (2, 3)] 4
      = none := by decide
  have hp5 : lagCorrAt [(0, 1), (1, 2), (2, 4)] [(0, 1), (1, 2), (2, 3)] 5
      = none := by decide
  have hp6 : lagCorrAt [(0, 1), (1, 2), (2, 4)] [(0, 1), (1, 2), (2, 3)] 6
      = none := by decide
  have hz : lagCorrAt [(0, 1), (1, 2), (2, 4)] [(0, 1), (1, 2), (2, 3)] 0
      = some ⟨3, 14/3, 2⟩ := by
    rw [lagCorrAt_zero]
    norm_num [dates, commonDates, locVals, lookupVal, pearsonOpt, varSum, covSum,
      mean, List.find?, List.filterMap, List.filter, List.zip, List.zipWith]
  simp only [hdropA, hdropE, hrange, List.filterMap_cons, List.filterMap_nil,
    hm6, hm5, hm4, hm3, hm2, hm1, hz, hp1, hp2, hp3, hp4, hp5, hp6,
    Option.map_some', Option.map_none', List.isEmpty_cons, if_false,
    Bool.false_eq_true, if_neg]

/-- Concrete evaluation: the lag dict result on `fredW`. -/
theorem calcLagCorrelations_fredW_eval :
    lookupA (calcLagCorrelations fredW expoW ["A"]) "A"
      = some [(0, ⟨3, 14/3, 2⟩)] := by
  rw [calcLagCorrelations, lookupA_filterMap,
    if_pos (by decide : "A" ∈ ["A"])]
  exact lagMapAt_fredW_eval

end ExportAnalysis

namespace ExportAnalysis

/-! ## Claim theorems -/

/-- C9: `run_full_analysis` is a pure function of its inputs — two calls
with identical indicator data, target data, selected indicators and
lookback window yield identical bundles; the embedding exposes no shared
mutable state between invocations. -/
theorem runFullAnalysis_deterministic (pval : List ℚ → List ℚ → ℚ)
    (f1 f2 : Frame) (e1 e2 : RawSeries) (s1 s2 : List String)
    (l1 l2 : Nat) (hf : f1 = f2) (he : e1 = e2) (hs : s1 = s2)
    (hl : l1 = l2) :
    runFullAnalysis pval f1 e1 s1 l1 = runFullAnalysis pval f2 e2 s2 l2 := by
  subst hf he hs hl
  rfl

/-- Witness for C9 at concrete inputs. -/
theorem runFullAnalysis_deterministic_witness :
    runFullAnalysis pvalZero fredW expoW ["A"] 12
      = runFullAnalysis pvalZero fredW expoW ["A"] 12 :=
  runFullAnalysis_deterministic pvalZero fredW fredW expoW expoW
    ["A"] ["A"] 12 12 rfl rfl rfl rfl

/-- Helper for C4: with an unknown selected indicator the orchestrator
always returns failure — whichever earlier step still succeeds, the
`analysis_data` concat raises on the missing column. -/
theorem runFullAnalysis_none_of_unknown (pval : List ℚ → List ℚ → ℚ)
    (fred : Frame) (expo : RawSeries) (selected : List String)
    (lookback : Nat) (ind : String) (hmem : ind ∈ selected)
    (hcol : fred.col? ind = none) :
    runFullAnalysis pval fred expo selected lookback = none := by
  unfold runFullAnalysis
  cases h1 : maxDate? fred.idx with
  | none => rfl
  | some mf =>
    cases h2 : maxDate? (rawDates expo) with
    | none => rfl
    | some me =>
      simp only [Option.bind_eq_bind, Option.some_bind]
      cases h3 : getTopCorrelations (calcCorrelations pval
          (fred.rowRestrict (min mf me - (lookback : Int)) (min mf me))
          (rawRestrict expo (min mf me - (lookback : Int)) (min mf me))
          selected) 5 with
      | none => rfl
      | some top =>
        cases h4 : getTopLaggedCorrelations (calcLagCorrelations
            (fred.rowRestrict (min mf me - (lookback : Int)) (min mf me))
            (rawRestrict expo (min mf me - (lookback : Int)) (min mf me))
            selected) 3 with
        | none => rfl
        | some topL =>
          rw [analysisRows_none_of_unknown hmem
            (col?_rowRestrict_none hcol)]
          rfl

/-- C1: the lag sign convention of the sweep.  For `lag > 0` the target
(export) series is the one shifted forward by `lag` positions before
aligning and correlating (each common date pairs the indicator value with
the target value `lag` positions earlier in the target's index); for
`lag < 0` the indicator series is the one shifted forward by `|lag|`
positions; for `lag == 0` the plain simultaneous correlation is computed
with no shift. -/
theorem lag_sign_convention (is es : Series) (lag : Int) :
    (0 < lag →
      lagCorrAt is es lag
        = if 3 ≤ (commonDates (dates is) (dates es)).length then
            if 3 ≤ (specPairsTargetShift is es lag.toNat).length then
              pearsonPairs (specPairsTargetShift is es lag.toNat)
            else none
          else none) ∧
    (lag < 0 →
      lagCorrAt is es lag
        = if 3 ≤ (commonDates (dates is) (dates es)).length then
            if 3 ≤ (specPairsIndicatorShift is es (-lag).toNat).length then
              pearsonPairs (specPairsIndicatorShift is es (-lag).toNat)
            else none
          else none) ∧
    (lagCorrAt is es 0
      = if 3 ≤ (commonDates (dates is) (dates es)).length then
          pearsonOpt (locVals is (commonDates (dates is) (dates es)))
            (locVals es (commonDates (dates is) (dates es)))
        else none) := by
  refine ⟨?_, ?_, lagCorrAt_zero is es⟩
  · intro hpos
    unfold lagCorrAt
    rw [if_pos hpos]
    dsimp only
    simp only [rawDates_shift]
    rw [lagPairsPos_eq_spec is es lag.toNat]
  · intro hneg
    unfold lagCorrAt
    rw [if_neg (by omega), if_pos hneg]
    dsimp only
    simp only [rawDates_shift]
    rw [lagPairsNeg_eq_spec is es (-lag).toNat]

/-- Witness for C1 at concrete inputs and lags `2` and `-2`. -/
theorem lag_sign_convention_witness :
    ((0 : Int) < 2 ∧
      lagCorrAt [(0, 1), (1, 2), (2, 4)] [(0, 1), (1, 2), (2, 3)] 2
        = if 3 ≤ (commonDates (dates [(0, 1), (1, 2), (2, 4)])
              (dates [(0, 1), (1, 2), (2, 3)])).length then
            if 3 ≤ (specPairsTargetShift [(0, 1), (1, 2), (2, 4)]
                [(0, 1), (1, 2), (2, 3)] (2 : Int).toNat).length then
              pearsonPairs (specPairsTargetShift [(0, 1), (1, 2), (2, 4)]
                [(0, 1), (1, 2), (2, 3)] (2 : Int).toNat)
            else none
          else none) ∧
    ((-2 : Int) < 0 ∧
      lagCorrAt [(0, 1), (1, 2), (2, 4)] [(0, 1), (1, 2), (2, 3)] (-2)
        = if 3 ≤ (commonDates (dates [(0, 1), (1, 2), (2, 4)])
              (dates [(0, 1), (1, 2), (2, 3)])).length then
            if 3 ≤ (specPairsIndicatorShift [(0, 1), (1, 2), (2, 4)]
                [(0, 1), (1, 2), (2, 3)] (-(-2 : Int)).toNat).length then
              pearsonPairs (specPairsIndicatorShift [(0, 1), (1, 2), (2, 4)]
                [(0, 1), (1, 2), (2, 3)] (-(-2 : Int)).toNat)
            else none
          else none) :=
  ⟨⟨by decide,
    (lag_sign_convention [(0, 1), (1, 2), (2, 4)]
      [(0, 1), (1, 2), (2, 3)] 2).1 (by decide)⟩,
   ⟨by decide,
    (lag_sign_convention [(0, 1), (1, 2), (2, 4)]
      [(0, 1), (1, 2), (2, 3)] (-2)).2.1 (by decide)⟩⟩

/-- C4 (refuting the claim): an unknown selected indicator is fatal to
`run_full_analysis` — the run returns failure even though the known
indicator `A` produced a correlation result, because
`fred_filtered[selected_indicators]` raises `KeyError` on the missing
column when assembling `analysis_data`. -/
theorem unknown_indicator_aborts_run :
    runFullAnalysis pvalZero fredW expoW ["A", "Ghost"] 12 = none ∧
      (calcCorrelations pvalZero fredW expoW ["A", "Ghost"]).map Prod.fst
        = ["A"] := by
  constructor
  · exact runFullAnalysis_none_of_unknown pvalZero fredW expoW
      ["A", "Ghost"] 12 "Ghost" (by decide) (by decide)
  · have hg : corrAt pvalZero fredW expoW "Ghost" = none := by
      unfold corrAt
      rw [show fredW.col? "Ghost" = none by decide]
    simp only [calcCorrelations, List.filterMap_cons, List.filterMap_nil,
      corrAt_fredW_A, hg, Option.map_some', Option.map_none',
      List.map_cons, List.map_nil]

/-- C10: for an indicator present in both result dicts, the lag-0 entry of
`calculate_lag_correlations` equals the `correlation` field produced by
`calculate_correlations` on the same inputs — both paths compute the same
simultaneous Pearson coefficient over the same intersected sample. -/
theorem lag_zero_agrees_with_simultaneous (pval : List ℚ → List ℚ → ℚ)
    (fred : Frame) (expo : RawSeries) (selected : List String) (ind : String)
    (cr : CorrResult) (m : List (Int × Pcorr))
    (h1 : lookupA (calcCorrelations pval fred expo selected) ind = some cr)
    (h2 : lookupA (calcLagCorrelations fred expo selected) ind = some m) :
    lookupA m (0 : Int) = some cr.corr := by
  rw [calcCorrelations, lookupA_filterMap] at h1
  rw [calcLagCorrelations, lookupA_filterMap] at h2
  by_cases hmem : ind ∈ selected
  · rw [if_pos hmem] at h1 h2
    unfold corrAt at h1
    unfold lagMapAt at h2
    cases hcol : fred.col? ind with
    | none =>
      rw [hcol] at h1
      exact Option.noConfusion h1
    | some rs =>
      rw [hcol] at h1 h2
      dsimp only at h2
      rcases corrOfSeries_eq_some h1 with ⟨hlen, hpe⟩
      have hz : lagCorrAt (dropna rs) (dropna expo) 0 = some cr.corr := by
        rw [lagCorrAt_zero, if_pos hlen, hpe]
      by_cases he :
          (lagRange.filterMap fun lag =>
            (lagCorrAt (dropna rs) (dropna expo) lag).map
              fun p => (lag, p)).isEmpty
      · rw [if_pos he] at h2
        exact Option.noConfusion h2
      · rw [if_neg he] at h2
        cases h2
        rw [lookupA_filterMap]
        rw [if_pos (by decide : (0 : Int) ∈ lagRange)]
        rw [hz]
  · rw [if_neg hmem] at h1
    exact Option.noConfusion h1

/-- Witness for C10 at concrete inputs. -/
theorem lag_zero_agrees_with_simultaneous_witness :
    lookupA (calcCorrelations pvalZero fredW expoW ["A"]) "A"
        = some ⟨⟨3, 14/3, 2⟩, 0, 3⟩ ∧
      lookupA (calcLagCorrelations fredW expoW ["A"]) "A"
        = some [(0, ⟨3, 14/3, 2⟩)] ∧
      lookupA [((0 : Int), (⟨3, 14/3, 2⟩ : Pcorr))] (0 : Int)
        = some (⟨3, 14/3, 2⟩ : Pcorr) :=
  ⟨calcCorrelations_fredW_eval, calcLagCorrelations_fredW_eval,
    lag_zero_agrees_with_simultaneous pvalZero fredW expoW ["A"] "A"
      ⟨⟨3, 14/3, 2⟩, 0, 3⟩ [(0, ⟨3, 14/3, 2⟩)]
      calcCorrelations_fredW_eval calcLagCorrelations_fredW_eval⟩

/-- C6: a per-indicator failure in the compute phase (insufficient aligned
data or an undefined correlation, i.e. `corrAt … = none`) only makes that
indicator absent from the results; as long as every selected name is a
known column and at least one indicator succeeds, the whole run returns a
bundle whose result dicts have exactly the surviving indicators. -/
theorem per_indicator_failure_not_fatal (pval : List ℚ → List ℚ → ℚ)
    (fred : Frame) (expo : RawSeries) (selected : List String)
    (lookback : Nat) (mf me : Date) (ff : Frame) (ef : RawSeries)
    (h1 : maxDate? fred.idx = some mf)
    (h2 : maxDate? (rawDates expo) = some me)
    (hff : ff = fred.rowRestrict (min mf me - (lookback : Int)) (min mf me))
    (hef : ef = rawRestrict expo (min mf me - (lookback : Int)) (min mf me))
    (hsel : ∀ ind ∈ selected, (ff.col? ind).isSome)
    (ind0 : String) (cr0 : CorrResult) (hmem : ind0 ∈ selected)
    (hsucc : corrAt pval ff ef ind0 = some cr0) :
    ∃ b, runFullAnalysis pval fred expo selected lookback = some b ∧
      b.correlations = calcCorrelations pval ff ef selected ∧
      b.lagAnalysis = calcLagCorrelations ff ef selected ∧
      (∀ ind, corrAt pval ff ef ind = none →
        lookupA b.correlations ind = none) ∧
      (∀ ind ∈ selected, ∀ c, corrAt pval ff ef ind = some c →
        lookupA b.correlations ind = some c) := by
  unfold runFullAnalysis
  rw [h1, h2]
  simp only [Option.bind_eq_bind, Option.some_bind]
  rw [← hff, ← hef]
  have hne : (calcCorrelations pval ff ef selected).isEmpty = false :=
    filterMap_assoc_not_empty _ selected ind0 hmem (by rw [hsucc]; rfl)
  rcases lagMapAt_of_corrAt hsucc with ⟨m, hm, hm0⟩
  have hlagmem : (ind0, m) ∈ calcLagCorrelations ff ef selected :=
    List.mem_filterMap.2 ⟨ind0, hmem, by rw [hm]; rfl⟩
  have hrowmem : (ind0, (0 : Int), cr0.corr) ∈
      (calcLagCorrelations ff ef selected).flatMap
        fun r => r.2.map fun lp => (r.1, lp.1, lp.2) :=
    List.mem_flatMap.2 ⟨(ind0, m), hlagmem,
      List.mem_map.2 ⟨((0 : Int), cr0.corr), hm0, rfl⟩⟩
  have hlagne : ((calcLagCorrelations ff ef selected).flatMap
      fun r => r.2.map fun lp => (r.1, lp.1, lp.2)).isEmpty = false := by
    cases hl : (calcLagCorrelations ff ef selected).flatMap
        fun r => r.2.map fun lp => (r.1, lp.1, lp.2) with
    | nil => rw [hl] at hrowmem; exact absurd hrowmem (List.not_mem_nil _)
    | cons hd tl => rfl
  rcases analysisRows_isSome_of_known hsel with ⟨rows, hrows⟩
  rw [getTopCorrelations, hne]
  rw [getTopLaggedCorrelations]
  rw [hlagne]
  simp only [Bool.false_eq_true, if_false, Option.some_bind]
  rw [hrows]
  simp only [Option.some_bind]
  refine ⟨_, rfl, rfl, rfl, ?_, ?_⟩
  · intro ind hnone
    rw [calcCorrelations, lookupA_filterMap]
    by_cases hin : ind ∈ selected
    · rw [if_pos hin, hnone]
    · rw [if_neg hin]
  · intro ind hin c hc
    rw [calcCorrelations, lookupA_filterMap, if_pos hin, hc]

/-- Witness for C6 at concrete inputs: column `C` of `fredConst` fails
(constant), column `B` succeeds, and the run still returns a bundle. -/
theorem per_indicator_failure_not_fatal_witness :
    corrAt pvalZero fredConst expoW "B" = some ⟨⟨3, 14/3, 2⟩, 0, 3⟩ ∧
    ∃ b, runFullAnalysis pvalZero fredConst expoW ["C", "B"] 12 = some b ∧
      b.correlations = calcCorrelations pvalZero fredConst expoW ["C", "B"] ∧
      b.lagAnalysis = calcLagCorrelations fredConst expoW ["C", "B"] ∧
      (∀ ind, corrAt pvalZero fredConst expoW ind = none →
        lookupA b.correlations ind = none) ∧
      (∀ ind ∈ ["C", "B"], ∀ c, corrAt pvalZero fredConst expoW ind = some c →
        lookupA b.correlations ind = some c) :=
  ⟨corrAt_fredConst_B,
    per_indicator_failure_not_fatal pvalZero fredConst expoW ["C", "B"] 12
      2 2 fredConst expoW (by decide) (by decide) (by decide) (by decide)
      (by decide) "B" ⟨⟨3, 14/3, 2⟩, 0, 3⟩ (by decide) corrAt_fredConst_B⟩

/-- C5: an indicator whose column is constant over the window never appears
in the output of `get_top_correlations` or `get_top_lagged_correlations` —
its undefined correlation is treated as absent, never as a number. -/
theorem constant_indicator_never_ranked (pval : List ℚ → List ℚ → ℚ)
    (fred : Frame) (expo : RawSeries) (selected : List String)
    (ind : String) (rs : RawSeries) (c : ℚ) (n1 n2 : Nat)
    (hcol : fred.col? ind = some rs)
    (hconst : ∀ x ∈ (dropna rs).map Prod.snd, x = c) :
    ind ∉ ((getTopCorrelations
        (calcCorrelations pval fred expo selected) n1).getD []).map Prod.fst ∧
    ind ∉ ((getTopLaggedCorrelations
        (calcLagCorrelations fred expo selected) n2).getD []).map Prod.fst := by
  constructor
  · intro hmem
    rcases List.mem_map.1 hmem with ⟨row, hrow, hfst⟩
    have hin : row ∈ calcCorrelations pval fred expo selected :=
      mem_of_mem_getTopCorrelations hrow
    have : ind ∈ (calcCorrelations pval fred expo selected).map Prod.fst :=
      List.mem_map.2 ⟨row, hin, hfst⟩
    exact not_mem_map_fst_filterMap _ selected ind
      (corrAt_none_of_const hcol hconst) this
  · intro hmem
    rcases List.mem_map.1 hmem with ⟨row, hrow, hfst⟩
    have hin := mem_of_mem_getTopLagged hrow
    rcases List.mem_flatMap.1 hin with ⟨r, hr, hmap⟩
    rcases List.mem_map.1 hmap with ⟨lp, _, hlp⟩
    have hkey : r.1 = ind := by rw [← hfst, ← hlp]
    have : ind ∈ (calcLagCorrelations fred expo selected).map Prod.fst :=
      List.mem_map.2 ⟨r, hr, hkey⟩
    exact not_mem_map_fst_filterMap _ selected ind
      (lagMapAt_none_of_const hcol hconst) this

/-- Witness for C5 at concrete inputs. -/
theorem constant_indicator_never_ranked_witness :
    fredConst.col? "C" = some [(0, some 5), (1, some 5), (2, some 5)] ∧
    (∀ x ∈ (dropna [(0, some 5), (1, some 5), (2, some 5)]).map Prod.snd,
      x = (5 : ℚ)) ∧
    ("C" ∉ ((getTopCorrelations
        (calcCorrelations pvalZero fredConst expoW ["C", "B"]) 5).getD
        []).map Prod.fst ∧
      "C" ∉ ((getTopLaggedCorrelations
        (calcLagCorrelations fredConst expoW ["C", "B"]) 3).getD
        []).map Prod.fst) :=
  ⟨by decide, by decide,
    constant_indicator_never_ranked pvalZero fredConst expoW ["C", "B"] "C"
      [(0, some 5), (1, some 5), (2, some 5)] 5 5 3 (by decide) (by decide)⟩

/-- C7: the window phase takes `end = min` of the two series' maximal
dates and `start = end - lookback_months`, truncates both inputs to the
closed interval `[start, end]` before any statistic is computed (the
bundle's dicts are the calculators applied to the truncated inputs), and a
duplicate-free monthly index then has at most `lookback + 1` points. -/
theorem window_phase (pval : List ℚ → List ℚ → ℚ) (fred : Frame)
    (expo : RawSeries) (selected : List String) (lookback : Nat)
    (mf me e s : Date)
    (h1 : maxDate? fred.idx = some mf)
    (h2 : maxDate? (rawDates expo) = some me)
    (he : e = min mf me) (hs : s = e - (lookback : Int))
    (hnodupF : fred.idx.Nodup) (hnodupE : (rawDates expo).Nodup) :
    (∀ d ∈ (fred.rowRestrict s e).idx, s ≤ d ∧ d ≤ e) ∧
    (∀ p ∈ rawRestrict expo s e, s ≤ p.1 ∧ p.1 ≤ e) ∧
    (fred.rowRestrict s e).idx.length ≤ lookback + 1 ∧
    (rawRestrict expo s e).length ≤ lookback + 1 ∧
    (∀ b, runFullAnalysis pval fred expo selected lookback = some b →
      b.analysisPeriod = (s, e) ∧
      b.correlations = calcCorrelations pval (fred.rowRestrict s e)
        (rawRestrict expo s e) selected ∧
      b.lagAnalysis = calcLagCorrelations (fred.rowRestrict s e)
        (rawRestrict expo s e) selected) := by
  have hmemF : ∀ d ∈ (fred.rowRestrict s e).idx, s ≤ d ∧ d ≤ e := by
    intro d hd
    unfold Frame.rowRestrict at hd
    have := List.of_mem_filter hd
    simp only [Bool.and_eq_true, decide_eq_true_eq] at this
    exact this
  have hmemE : ∀ p ∈ rawRestrict expo s e, s ≤ p.1 ∧ p.1 ≤ e := by
    intro p hp
    unfold rawRestrict at hp
    have := List.of_mem_filter hp
    simp only [Bool.and_eq_true, decide_eq_true_eq] at this
    exact this
  have hspan : (e + 1 - s).toNat = lookback + 1 := by
    rw [hs]
    have : e + 1 - (e - (lookback : Int)) = (lookback : Int) + 1 := by ring
    rw [this]
    exact_mod_cast Int.toNat_ofNat (lookback + 1)
  refine ⟨hmemF, hmemE, ?_, ?_, ?_⟩
  · have := length_le_of_nodup_mem_Icc
      (l := (fred.rowRestrict s e).idx) (List.Nodup.filter _ hnodupF) hmemF
    rw [hspan] at this
    exact this
  · have hsub : ((rawRestrict expo s e).map Prod.fst).Sublist (rawDates expo) := by
      unfold rawRestrict rawDates
      exact List.Sublist.map Prod.fst (List.filter_sublist expo)
    have hnd : ((rawRestrict expo s e).map Prod.fst).Nodup :=
      List.Nodup.sublist hsub hnodupE
    have hmemD : ∀ d ∈ (rawRestrict expo s e).map Prod.fst, s ≤ d ∧ d ≤ e := by
      intro d hd
      rcases List.mem_map.1 hd with ⟨p, hp, hpd⟩
      exact hpd ▸ hmemE p hp
    have := length_le_of_nodup_mem_Icc hnd hmemD
    rw [hspan, List.length_map] at this
    exact this
  · intro b hb
    unfold runFullAnalysis at hb
    rw [h1, h2] at hb
    simp only [Option.bind_eq_bind, Option.some_bind] at hb
    rw [← he] at hb
    rw [← hs] at hb
    cases h3 : getTopCorrelations (calcCorrelations pval
        (fred.rowRestrict s e) (rawRestrict expo s e) selected) 5 with
    | none =>
      rw [h3] at hb
      exact Option.noConfusion hb
    | some top =>
      rw [h3] at hb
      simp only [Option.some_bind] at hb
      cases h4 : getTopLaggedCorrelations (calcLagCorrelations
          (fred.rowRestrict s e) (rawRestrict expo s e) selected) 3 with
      | none =>
        rw [h4] at hb
        exact Option.noConfusion hb
      | some topL =>
        rw [h4] at hb
        simp only [Option.some_bind] at hb
        cases h5 : analysisRows (fred.rowRestrict s e)
            (rawRestrict expo s e) selected with
        | none =>
          rw [h5] at hb
          exact Option.noConfusion hb
        | some rows =>
          rw [h5] at hb
          simp only [Option.some_bind] at hb
          cases hb
          exact ⟨rfl, rfl, rfl⟩

/-- C2 counterexample: with columns `A` and `B` valid on disjoint months,
the joint row set (dates where every selected column and the target are
defined) is empty, yet matrix construction does not fail: the `A` ×
`Export_Sales` cell is a defined number computed over the rows where just
those two columns are defined — pandas `.corr()` deletes NaNs pairwise,
not via an inner join. -/
theorem matrix_joint_rows_counterexample :
    jointDates fredDisjoint expoLong ["A", "B"] = [] ∧
      matrixEntry fredDisjoint expoLong "A" "Export_Sales"
        = some ⟨3, 14/3, 2⟩ := by
  refine ⟨by decide, ?_⟩
  have hrows : allRowDates fredDisjoint expoLong = [0, 1, 2, 3, 4, 5] := by
    decide
  have hcolA : matrixCol fredDisjoint expoLong "A"
      = [(0, some 1), (1, some 2), (2, some 4),
         (3, none), (4, none), (5, none)] := by decide
  have hcolE : matrixCol fredDisjoint expoLong "Export_Sales"
      = [(0, some 1), (1, some 2), (2, some 3),
         (3, some 4), (4, some 5), (5, some 6)] := by decide
  have hpairs : ([0, 1, 2, 3, 4, 5] : List Date).filterMap
      (pairAt [(0, some 1), (1, some 2), (2, some 4),
               (3, none), (4, none), (5, none)]
        [(0, some 1), (1, some 2), (2, some 3),
         (3, some 4), (4, some 5), (5, some 6)])
      = [(1, 1), (2, 2), (4, 3)] := by decide
  unfold matrixEntry
  rw [hrows, hcolA, hcolE, hpairs]
  norm_num [pearsonPairs, pearsonOpt, varSum, covSum, mean,
    List.zip, List.zipWith]

/-- C2 (amended): every cell of the matrix is the Pearson statistic over
exactly the pairwise-complete rows of its own two columns (dates where
both columns are defined — pairwise deletion, not an inner join over all
columns), and construction is total: the matrix always comes back square
over the available indicators plus the target, with undefined cells as
NaN (`none`) rather than a failure. -/
theorem matrix_cells_use_pairwise_rows (fred : Frame) (expo : RawSeries)
    (selected : List String) :
    (∀ x y, matrixEntry fred expo x y
      = pearsonPairs ((pairwiseDates (matrixCol fred expo x)
          (matrixCol fred expo y) (allRowDates fred expo)).filterMap
          (pairAt (matrixCol fred expo x) (matrixCol fred expo y)))) ∧
    ((createCorrelationMatrix fred expo selected).map Prod.fst
      = matrixNames fred selected) ∧
    (∀ row ∈ createCorrelationMatrix fred expo selected,
      row.2.map Prod.fst = matrixNames fred selected ∧
      ∀ cell ∈ row.2, cell.2 = matrixEntry fred expo row.1 cell.1) := by
  refine ⟨?_, ?_, ?_⟩
  · intro x y
    unfold matrixEntry pairwiseDates
    congr 1
    rw [filterMap_eq_filter_isSome
      (pairAt (matrixCol fred expo x) (matrixCol fred expo y))
      (allRowDates fred expo)]
    congr 1
    apply List.filter_congr
    intro d _
    exact pairAt_isSome_eq (matrixCol fred expo x) (matrixCol fred expo y) d
  · unfold createCorrelationMatrix
    rw [List.map_map]
    exact List.map_id _
  · intro row hrow
    rcases List.mem_map.1 hrow with ⟨x, _, hrx⟩
    refine ⟨?_, ?_⟩
    · rw [← hrx]
      dsimp only
      rw [List.map_map]
      exact List.map_id _
    · intro cell hcell
      rw [← hrx] at hcell
      dsimp only at hcell
      rcases List.mem_map.1 hcell with ⟨y, _, hcy⟩
      rw [← hcy, ← hrx]

/-- Witness for C2 at a concrete matrix row. -/
theorem matrix_cells_use_pairwise_rows_witness :
    (("A", [("A", matrixEntry fredW expoW "A" "A"),
        ("Export_Sales", matrixEntry fredW expoW "A" "Export_Sales")])
      ∈ createCorrelationMatrix fredW expoW ["A"]) ∧
    ([("A", matrixEntry fredW expoW "A" "A"),
        ("Export_Sales", matrixEntry fredW expoW "A" "Export_Sales")].map
          Prod.fst = matrixNames fredW ["A"] ∧
      ∀ cell ∈ [("A", matrixEntry fredW expoW "A" "A"),
          ("Export_Sales", matrixEntry fredW expoW "A" "Export_Sales")],
        cell.2 = matrixEntry fredW expoW "A" cell.1) :=
  ⟨List.mem_cons_self _ _,
    (matrix_cells_use_pairwise_rows fredW expoW ["A"]).2.2
      ("A", [("A", matrixEntry fredW expoW "A" "A"),
        ("Export_Sales", matrixEntry fredW expoW "A" "Export_Sales")])
      (List.mem_cons_self _ _)⟩

/-- C3 counterexample: `corrsTie` supplies entry `A` before entry `B` and
their absolute correlation values tie exactly, yet `get_top_correlations`
lists `B` first — the claim's stable tie-break in supplied order fails
(the descending sort reverses the stable ascending argsort). -/
theorem ranking_tie_counterexample :
    corrsTie.map Prod.fst = ["A", "B"] ∧
    |Pcorr.val ⟨2, 2, 2⟩| = |Pcorr.val ⟨-2, 2, 2⟩| ∧
    (getTopCorrelations corrsTie 5).map (fun l => l.map Prod.fst)
      = some ["B", "A"] := by
  refine ⟨rfl, ?_, ?_⟩
  · apply (absSq_eq_iff (p := ⟨2, 2, 2⟩) (q := ⟨-2, 2, 2⟩)
      (by norm_num) (by norm_num) (by norm_num) (by norm_num)).1
    norm_num [Pcorr.absSq]
  · rw [getTop_corrsTie_eval]
    rfl

/-- C3 (amended): both rankers return at most `N` rows, sorted by
non-increasing absolute value of the real correlation coefficient; ties in
absolute correlation are broken by the REVERSE of the order in which the
entries were supplied (the output is a permutation of the enumerated input
rows in strictly decreasing (|value|, original position) order). -/
theorem rankers_sorted_desc_ties_reversed
    (corrs : List (String × CorrResult))
    (lagRes : List (String × List (Int × Pcorr))) (n1 n2 : Nat)
    (hposC : ∀ r ∈ corrs, 0 < r.2.corr.vx ∧ 0 < r.2.corr.vy)
    (hposL : ∀ r ∈ lagRes, ∀ lp ∈ r.2, 0 < lp.2.vx ∧ 0 < lp.2.vy) :
    (∀ out, getTopCorrelations corrs n1 = some out →
      out.length ≤ n1 ∧
      out.Pairwise (fun a b => |b.2.corr.val| ≤ |a.2.corr.val|) ∧
      ∃ sorted, List.Perm sorted corrs.enum ∧
        sorted.Pairwise (fun a b =>
          |b.2.2.corr.val| < |a.2.2.corr.val| ∨
            (|a.2.2.corr.val| = |b.2.2.corr.val| ∧ b.1 < a.1)) ∧
        out = (sorted.map Prod.snd).take n1) ∧
    (∀ out, getTopLaggedCorrelations lagRes n2 = some out →
      out.length ≤ n2 ∧
      out.Pairwise (fun a b => |b.2.2.val| ≤ |a.2.2.val|) ∧
      ∃ sorted, List.Perm sorted (lagRes.flatMap fun r =>
          r.2.map fun lp => (r.1, lp.1, lp.2)).enum ∧
        sorted.Pairwise (fun a b =>
          |b.2.2.2.val| < |a.2.2.2.val| ∨
            (|a.2.2.2.val| = |b.2.2.2.val| ∧ b.1 < a.1)) ∧
        out = (sorted.map Prod.snd).take n2) := by
  constructor
  · intro out hout
    unfold getTopCorrelations at hout
    by_cases he : corrs.isEmpty
    · rw [if_pos he] at hout
      exact Option.noConfusion hout
    · rw [if_neg he] at hout
      cases hout
      rcases sortValuesDesc_spec (fun r => r.2.corr) corrs hposC with
        ⟨hperm, hpair, heq⟩
      refine ⟨List.length_take_le _ _, ?_, _, hperm, hpair, by rw [heq]⟩
      rw [heq]
      apply List.Pairwise.sublist (List.take_sublist _ _)
      apply hpair.map
      intro a b hab
      rcases hab with h | ⟨h, _⟩
      · exact le_of_lt h
      · exact le_of_eq h.symm
  · intro out hout
    unfold getTopLaggedCorrelations at hout
    dsimp only at hout
    by_cases he : (lagRes.flatMap fun r =>
        r.2.map fun lp => (r.1, lp.1, lp.2)).isEmpty
    · rw [if_pos he] at hout
      exact Option.noConfusion hout
    · rw [if_neg he] at hout
      cases hout
      have hposR : ∀ row : String × Int × Pcorr,
          row ∈ (lagRes.flatMap fun r =>
            r.2.map fun lp => (r.1, lp.1, lp.2)) →
          0 < row.2.2.vx ∧ 0 < row.2.2.vy := by
        intro row hr
        rcases List.mem_flatMap.1 hr with ⟨s, hs, hmap⟩
        rcases List.mem_map.1 hmap with ⟨lp, hlp, hr2⟩
        rw [← hr2]
        exact hposL s hs lp hlp
      rcases sortValuesDesc_spec (fun r : String × Int × Pcorr => r.2.2)
        (lagRes.flatMap fun r => r.2.map fun lp => (r.1, lp.1, lp.2))
        hposR with ⟨hperm, hpair, heq⟩
      refine ⟨List.length_take_le _ _, ?_, _, hperm, hpair, by rw [heq]⟩
      rw [heq]
      apply List.Pairwise.sublist (List.take_sublist _ _)
      apply hpair.map
      intro a b hab
      rcases hab with h | ⟨h, _⟩
      · exact le_of_lt h
      · exact le_of_eq h.symm

/-- Witness for C3 at the concrete tied rows. -/
theorem rankers_sorted_desc_ties_reversed_witness :
    (∀ r ∈ corrsTie, 0 < r.2.corr.vx ∧ 0 < r.2.corr.vy) ∧
    (([("B", (⟨⟨-2, 2, 2⟩, 0, 3⟩ : CorrResult)),
        ("A", ⟨⟨2, 2, 2⟩, 0, 3⟩)]).length ≤ 5 ∧
      ([("B", (⟨⟨-2, 2, 2⟩, 0, 3⟩ : CorrResult)),
        ("A", ⟨⟨2, 2, 2⟩, 0, 3⟩)]).Pairwise
          (fun a b => |b.2.corr.val| ≤ |a.2.corr.val|) ∧
      ∃ sorted, List.Perm sorted corrsTie.enum ∧
        sorted.Pairwise (fun a b =>
          |b.2.2.corr.val| < |a.2.2.corr.val| ∨
            (|a.2.2.corr.val| = |b.2.2.corr.val| ∧ b.1 < a.1)) ∧
        [("B", (⟨⟨-2, 2, 2⟩, 0, 3⟩ : CorrResult)),
          ("A", ⟨⟨2, 2, 2⟩, 0, 3⟩)] = (sorted.map Prod.snd).take 5) ∧
    (([("A", (0 : Int), (⟨2, 2, 2⟩ : Pcorr))]).length ≤ 3 ∧
      ([("A", (0 : Int), (⟨2, 2, 2⟩ : Pcorr))]).Pairwise
        (fun a b => |b.2.2.val| ≤ |a.2.2.val|) ∧
      ∃ sorted, List.Perm sorted
          (([("A", [((0 : Int), (⟨2, 2, 2⟩ : Pcorr))])].flatMap fun r =>
            r.2.map fun lp => (r.1, lp.1, lp.2)).enum) ∧
        sorted.Pairwise (fun a b =>
          |b.2.2.2.val| < |a.2.2.2.val| ∨
            (|a.2.2.2.val| = |b.2.2.2.val| ∧ b.1 < a.1)) ∧
        [("A", (0 : Int), (⟨2, 2, 2⟩ : Pcorr))]
          = (sorted.map Prod.snd).take 3) := by
  refine ⟨by decide, ?_, ?_⟩
  · exact (rankers_sorted_desc_ties_reversed corrsTie
      [("A", [(0, ⟨2, 2, 2⟩)])] 5 3 (by decide) (by decide)).1
      _ getTop_corrsTie_eval
  · exact (rankers_sorted_desc_ties_reversed corrsTie
      [("A", [(0, ⟨2, 2, 2⟩)])] 5 3 (by decide) (by decide)).2
      _ getTopLagged_tie_eval

/-- C8 counterexample: in the matrix built over `fredConst`'s columns the
name `C` is a matrix label, yet its diagonal cell is NaN (undefined), not
`1.0` — the claim's unconditional unit diagonal fails for a constant
column. -/
theorem matrix_diagonal_counterexample :
    "C" ∈ matrixNames fredConst ["C", "B"] ∧
      matrixEntry fredConst expoW "C" "C" = none := by
  refine ⟨by decide, ?_⟩
  have hrows : allRowDates fredConst expoW = [0, 1, 2] := by decide
  have hcol : matrixCol fredConst expoW "C"
      = [(0, some 5), (1, some 5), (2, some 5)] := by decide
  have hpairs : ([0, 1, 2] : List Date).filterMap
      (pairAt [(0, some 5), (1, some 5), (2, some 5)]
        [(0, some 5), (1, some 5), (2, some 5)])
      = [(5, 5), (5, 5), (5, 5)] := by decide
  unfold matrixEntry
  rw [hrows, hcol, hpairs]
  unfold pearsonPairs
  exact pearsonOpt_none_left (varSum_const (c := 5) (by decide))

/-- C8 (amended): the matrix of `create_correlation_matrix` is symmetric
at the level of real correlation values for every pair of names, its shape
is square over the available indicators plus the target, and every
*defined* diagonal cell (a column with nonzero variance over its valid
rows) has value exactly 1; a zero-variance column instead has an undefined
(NaN) diagonal cell. -/
theorem matrix_symmetry_and_diagonal (fred : Frame) (expo : RawSeries)
    (selected : List String) :
    (∀ x y, (matrixEntry fred expo x y).map Pcorr.val
      = (matrixEntry fred expo y x).map Pcorr.val) ∧
    (∀ x p, matrixEntry fred expo x x = some p → p.val = 1) ∧
    ((createCorrelationMatrix fred expo selected).map Prod.fst
      = matrixNames fred selected) ∧
    (∀ row ∈ createCorrelationMatrix fred expo selected,
      row.2.map Prod.fst = matrixNames fred selected ∧
      ∀ cell ∈ row.2, cell.2 = matrixEntry fred expo row.1 cell.1) := by
  refine ⟨?_, fun x p h => matrixEntry_diag_val h, ?_, ?_⟩
  · intro x y
    rw [matrixEntry_symm_struct fred expo x y]
    cases matrixEntry fred expo x y with
    | none => rfl
    | some p =>
      simp only [Option.map_some']
      exact congrArg some (pcorrVal_swap p.cov p.vx p.vy).symm
  · unfold createCorrelationMatrix
    rw [List.map_map]
    exact List.map_id _
  · intro row hrow
    rcases List.mem_map.1 hrow with ⟨x, _, hrx⟩
    refine ⟨?_, ?_⟩
    · rw [← hrx]
      dsimp only
      rw [List.map_map]
      exact List.map_id _
    · intro cell hcell
      rw [← hrx] at hcell
      dsimp only at hcell
      rcases List.mem_map.1 hcell with ⟨y, _, hcy⟩
      rw [← hcy, ← hrx]

/-- Witness for C8's diagonal implication at a concrete non-constant
column. -/
theorem matrix_symmetry_and_diagonal_witness :
    matrixEntry fredW expoW "A" "A" = some ⟨14/3, 14/3, 14/3⟩ ∧
      Pcorr.val ⟨14/3, 14/3, 14/3⟩ = 1 :=
  ⟨matrixEntry_fredW_AA_eval,
    (matrix_symmetry_and_diagonal fredW expoW ["A"]).2.1 "A"
      ⟨14/3, 14/3, 14/3⟩ matrixEntry_fredW_AA_eval⟩

/-- Witness for C7 at concrete inputs: 24 months of data, a 3-month
lookback, a window of `[20, 23]` and at most 4 surviving points. -/
theorem window_phase_witness :
    fred24.idx.Nodup ∧
    ((∀ d ∈ (fred24.rowRestrict 20 23).idx, 20 ≤ d ∧ d ≤ 23) ∧
      (∀ p ∈ rawRestrict expo24 20 23, 20 ≤ p.1 ∧ p.1 ≤ 23) ∧
      (fred24.rowRestrict 20 23).idx.length ≤ 3 + 1 ∧
      (rawRestrict expo24 20 23).length ≤ 3 + 1 ∧
      (∀ b, runFullAnalysis pvalZero fred24 expo24 ["A"] 3 = some b →
        b.analysisPeriod = (20, 23) ∧
        b.correlations = calcCorrelations pvalZero (fred24.rowRestrict 20 23)
          (rawRestrict expo24 20 23) ["A"] ∧
        b.lagAnalysis = calcLagCorrelations (fred24.rowRestrict 20 23)
          (rawRestrict expo24 20 23) ["A"])) :=
  ⟨by decide,
    window_phase pvalZero fred24 expo24 ["A"] 3 23 23 23 20
      (by decide) (by decide) (by decide) (by decide) (by decide) (by decide)⟩

end ExportAnalysis
